import Mathlib

/-!
Shallow embedding of the sky table storage engine (package `db`):
the timestamp codec (`db/time.go`), the LMDB transaction adapter
(`transaction.go`: `get/getAt/getAll/put/putAt/del/delAt`), the factor
dictionary and the `Table` aggregate (`table.go`: schema CRUD, event CRUD,
factorize/defactorize), together with proofs of the testable properties.

Strings that the Go code treats as byte slices (object ids, factor values)
are modelled as `List Nat` of byte values; machine integers are `Int`/`Nat`
with explicit reductions modulo 2^64 where the code converts through
`uint64`.
-/

namespace Sky

/-- Byte strings (Go `[]byte` / `string` used as raw bytes). -/
abbrev Bytes := List Nat

/-- Strict lexicographic byte-wise order, as LMDB compares keys and
duplicate values: unsigned byte compare, a strict prefix sorts first. -/
def lexLt : Bytes → Bytes → Bool
  | [], [] => false
  | [], _ :: _ => true
  | _ :: _, [] => false
  | a :: as, b :: bs => if a < b then true else if b < a then false else lexLt as bs

/-- `hasPfx p v` holds when `v` starts with the byte string `p`
(Go `bytes.HasPrefix(v, p)`). -/
def hasPfx : Bytes → Bytes → Bool
  | [], _ => true
  | _ :: _, [] => false
  | a :: as, b :: bs => a = b && hasPfx as bs

/-- Big-endian base-256 digits of `u`, `k` bytes (most significant first). -/
def beBytes : Nat → Nat → Bytes
  | 0, _ => []
  | k + 1, u => (u / 256 ^ k) :: beBytes k (u % 256 ^ k)

theorem lexLt_irrefl (a : Bytes) : lexLt a a = false := by
  induction a with
  | nil => rfl
  | cons x xs ih => simp [lexLt, ih]

theorem lexLt_asymm : ∀ a b : Bytes, lexLt a b = true → lexLt b a = false
  | [], [], h => by simp [lexLt] at h
  | [], _ :: _, _ => rfl
  | _ :: _, [], h => by simp [lexLt] at h
  | a :: as, b :: bs, h => by
    simp only [lexLt] at h ⊢
    rcases Nat.lt_trichotomy a b with hab | hab | hab
    · simp [hab, show ¬ b < a by omega]
    · subst hab
      simp only [lt_irrefl, if_false] at h ⊢
      exact lexLt_asymm as bs h
    · simp [hab, show ¬ a < b by omega] at h

theorem lexLt_total : ∀ a b : Bytes, a ≠ b → lexLt a b = true ∨ lexLt b a = true
  | [], [], h => absurd rfl h
  | [], _ :: _, _ => Or.inl rfl
  | _ :: _, [], _ => Or.inr rfl
  | a :: as, b :: bs, h => by
    simp only [lexLt]
    rcases Nat.lt_trichotomy a b with hab | hab | hab
    · left; simp [hab]
    · subst hab
      have : as ≠ bs := fun hh => h (by rw [hh])
      rcases lexLt_total as bs this with h' | h' <;> simp [h', lt_irrefl]
    · right; simp [hab, show ¬ a < b by omega]

theorem lexLt_trans : ∀ a b c : Bytes, lexLt a b = true → lexLt b c = true →
    lexLt a c = true
  | [], [], _, h, _ => by simp [lexLt] at h
  | [], _ :: _, [], _, h => by simp [lexLt] at h
  | [], _ :: _, _ :: _, _, _ => rfl
  | _ :: _, [], _, h, _ => by simp [lexLt] at h
  | _ :: _, _ :: _, [], _, h => by simp [lexLt] at h
  | a :: as, b :: bs, c :: cs, h1, h2 => by
    simp only [lexLt] at h1 h2 ⊢
    rcases Nat.lt_trichotomy a b with hab | hab | hab
    · rcases Nat.lt_trichotomy b c with hbc | hbc | hbc
      · simp [Nat.lt_trans hab hbc]
      · subst hbc; simp [hab]
      · simp [show ¬ b < c by omega, hbc] at h2
    · subst hab
      simp only [lt_irrefl, if_false] at h1
      rcases Nat.lt_trichotomy a c with hbc | hbc | hbc
      · simp [hbc]
      · subst hbc
        simp only [lt_irrefl, if_false] at h2 ⊢
        exact lexLt_trans as bs cs h1 h2
      · simp [show ¬ a < c by omega, hbc] at h2
    · simp [show ¬ a < b by omega, hab] at h1

/-- Comparison of concatenations with equal-length distinct leading blocks is
decided by the blocks alone. -/
theorem lexLt_append_of_ne : ∀ (p q s t : Bytes), p.length = q.length → p ≠ q →
    lexLt (p ++ s) (q ++ t) = lexLt p q
  | [], [], _, _, _, hne => absurd rfl hne
  | [], _ :: _, _, _, hl, _ => by simp at hl
  | _ :: _, [], _, _, hl, _ => by simp at hl
  | a :: as, b :: bs, s, t, hl, hne => by
    simp only [List.cons_append, lexLt]
    rcases Nat.lt_trichotomy a b with hab | hab | hab
    · simp [hab]
    · subst hab
      have hne' : as ≠ bs := fun hh => hne (by rw [hh])
      simp only [lt_irrefl, if_false]
      exact lexLt_append_of_ne as bs s t (Nat.succ_injective hl) hne'
    · simp [show ¬ a < b by omega, hab]

/-- Extending a byte string never makes it smaller. -/
theorem lexLt_append_self (p s : Bytes) : lexLt (p ++ s) p = false := by
  induction p with
  | nil => cases s <;> rfl
  | cons a as ih => simp [lexLt, ih]

theorem hasPfx_append (p s : Bytes) : hasPfx p (p ++ s) = true := by
  induction p with
  | nil => rfl
  | cons a as ih => simp [hasPfx, ih]

theorem hasPfx_iff_append : ∀ p v : Bytes, hasPfx p v = true ↔ ∃ s, v = p ++ s
  | [], v => by simp [hasPfx]
  | a :: as, [] => by simp [hasPfx]
  | a :: as, b :: bs => by
    simp only [hasPfx, Bool.and_eq_true, decide_eq_true_eq]
    constructor
    · rintro ⟨rfl, h⟩
      obtain ⟨s, rfl⟩ := (hasPfx_iff_append as bs).1 h
      exact ⟨s, rfl⟩
    · rintro ⟨s, hs⟩
      cases hs
      exact ⟨rfl, (hasPfx_iff_append as (as ++ s)).2 ⟨s, rfl⟩⟩

theorem beBytes_length (k u : Nat) : (beBytes k u).length = k := by
  induction k generalizing u with
  | zero => rfl
  | succ k ih => simp [beBytes, ih]

theorem beBytes_lt : ∀ (k : Nat) (u v : Nat), u < 256 ^ k → v < 256 ^ k →
    lexLt (beBytes k u) (beBytes k v) = decide (u < v)
  | 0, u, v, hu, hv => by
    interval_cases u
    interval_cases v
    rfl
  | k + 1, u, v, hu, hv => by
    simp only [beBytes, lexLt]
    rcases Nat.lt_trichotomy (u / 256 ^ k) (v / 256 ^ k) with h | h | h
    · have : u < v := Nat.lt_of_div_lt_div h
      simp [h, this]
    · have huv : u < v ↔ u % 256 ^ k < v % 256 ^ k := by
        conv_lhs => rw [← Nat.div_add_mod u (256 ^ k), ← Nat.div_add_mod v (256 ^ k), h]
        exact Nat.add_lt_add_iff_left
      rw [h]
      simp only [lt_irrefl, if_false]
      have hu' : u % 256 ^ k < 256 ^ k := Nat.mod_lt _ (Nat.pos_pow_of_pos k (by norm_num))
      have hv' : v % 256 ^ k < 256 ^ k := Nat.mod_lt _ (Nat.pos_pow_of_pos k (by norm_num))
      rw [beBytes_lt k _ _ hu' hv']
      by_cases hm : u % 256 ^ k < v % 256 ^ k
      · simp [hm, huv.2 hm]
      · have : ¬ u < v := fun hc => hm (huv.1 hc)
        simp [hm, this]
    · have hvu : v < u := Nat.lt_of_div_lt_div h
      simp [show ¬ u / 256 ^ k < v / 256 ^ k by omega, h, show ¬ u < v by omega]

theorem beBytes_inj (k : Nat) {u v : Nat} (hu : u < 256 ^ k) (hv : v < 256 ^ k)
    (h : beBytes k u = beBytes k v) : u = v := by
  by_contra hne
  rcases Nat.lt_or_ge u v with hlt | hge
  · have := beBytes_lt k u v hu hv
    rw [h, lexLt_irrefl] at this
    simp [hlt] at this
  · have hlt : v < u := lt_of_le_of_ne hge (fun hh => hne hh.symm)
    have := beBytes_lt k v u hv hu
    rw [h, lexLt_irrefl] at this
    simp [hlt] at this

/-! ## Timestamp codec (`db/time.go`)

A wall-clock instant normalized to microsecond resolution is represented by
its count of microseconds since the Unix epoch (`t.UnixNano() / 1000`).
Go's `/` and `%` on integers truncate toward zero (`Int.tdiv` / `Int.tmod`);
`&` with the mask `0xFFFFF` and the arithmetic shift `>> 20` on a two's
complement `int64` are `Int.emod` / `Int.ediv` by `2^20`. -/

/-- `shiftTime` (`db/time.go:11`): `(sec << 20) + usec` where
`sec = timestamp / 1000000` and `usec = timestamp % 1000000` in Go's
truncated division. -/
def shiftTime (us : Int) : Int :=
  (us.tdiv 1000000) * 2 ^ 20 + us.tmod 1000000

/-- `unshiftTime` (`db/time.go:28`): split on bit 20, rebuild the µs count
(`time.Unix(sec, usec*1000)` holds `sec*10^6 + usec` microseconds).
On a two's complement `int64`, `value & 0xFFFFF` is the Euclidean remainder
`value % 2^20` and the arithmetic shift `value >> 20` is the floor
(Euclidean, the divisor being positive) quotient `value / 2^20`. -/
def unshiftTime (value : Int) : Int :=
  (value / (2 ^ 20 : Int)) * 1000000 + value % (2 ^ 20 : Int)

/-! ## Event values

The on-disk value map is `map[int]interface{}` serialized with a
self-describing binary encoding; after decoding, `promote` collapses every
integer width to `int64` and every float width to `float64`
(`part_016 promote`).  The embedding works in the already-promoted value
domain: `vint` is an `int64`, `vfloat` a `float64` carried as its IEEE-754
bit pattern (the engine only stores and reloads float bits; it never
computes with them), `vstr` a byte string, `vbool` a boolean. -/

inductive Value where
  | vint (i : Int)
  | vfloat (bits : Nat)
  | vstr (s : Bytes)
  | vbool (b : Bool)
deriving DecidableEq, Repr

/-- `promote` (`part_016:29`): collapses integer and float widths.  In the
embedding every value already carries its promoted 64-bit form, so the
function is the identity on the modelled domain. -/
def promote (v : Value) : Value := v

/-- A raw event (`part_024:1065`): shifted timestamp plus data keyed by
property ID.  The Go `map[int]interface{}` is modelled as an association
list kept strictly sorted by key, the canonical form of the map. -/
structure RawEvent where
  timestamp : Int
  data : List (Int × Value)
deriving DecidableEq, Repr

/-- Insert-or-replace into an assoc list kept strictly sorted by the
boolean order `lt`: the canonical-form image of a Go map assignment
`m[k] = v`. -/
def mapPut {α β : Type} [DecidableEq α] (lt : α → α → Bool) (k : α) (v : β) :
    List (α × β) → List (α × β)
  | [] => [(k, v)]
  | (k', v') :: rest =>
    if lt k k' then (k, v) :: (k', v') :: rest
    else if k = k' then (k, v) :: rest
    else (k', v') :: mapPut lt k v rest

/-- Strict order on `Int` keys as a boolean. -/
def intLt (a b : Int) : Bool := decide (a < b)

/-- The merge in `Table.insertEvent` (`part_024:597`): start from the
current data and overwrite per key with the new event's entries. -/
def rawMerge (current new : List (Int × Value)) : List (Int × Value) :=
  new.foldl (fun acc kv => mapPut intLt kv.1 kv.2 acc) current

/-- Unsigned 64-bit pattern of an `int64` (`binary.BigEndian` writes the
two's complement bytes). -/
def toU64 (i : Int) : Nat := (i % (2 ^ 64 : Int)).toNat

/-- Read an `int64` back from its unsigned 64-bit pattern. -/
def ofU64 (u : Nat) : Int := if u < 2 ^ 63 then (u : Int) else (u : Int) - 2 ^ 64

/-- The 8-byte big-endian shifted-timestamp header
(`binary.Write(&buf, binary.BigEndian, timestamp)`). -/
def tsBytes (t : Int) : Bytes := beBytes 8 (toU64 t)

/-! ### Value-map encoding

Modelled from the spec: the serialization of the value map is performed by
a third-party MessagePack codec whose source is not part of this
repository; §4.4 specifies only "a compact, self-describing binary object
encoding (length-prefixed maps with tagged integer/float/string/boolean
leaves)".  The embedding uses such an encoding directly: an entry-count
prefix, and per entry the property ID followed by a tagged leaf.  Symbols
of the payload are `Nat`s; only the 8-byte timestamp header (which the
store compares byte-wise) is kept at byte granularity. -/

def encVal : Value → List Nat
  | .vint i => 1 :: [toU64 i]
  | .vfloat bits => 2 :: [bits]
  | .vstr s => 3 :: s.length :: s
  | .vbool b => 4 :: [if b then 1 else 0]

def encEntries : List (Int × Value) → List Nat
  | [] => []
  | kv :: rest => toU64 kv.1 :: (encVal kv.2 ++ encEntries rest)

def encodeData (d : List (Int × Value)) : List Nat :=
  d.length :: encEntries d

def decVal : List Nat → Option (Value × List Nat)
  | 1 :: u :: rest => some (.vint (ofU64 u), rest)
  | 2 :: bits :: rest => some (.vfloat bits, rest)
  | 3 :: n :: rest =>
    if n ≤ rest.length then some (.vstr (rest.take n), rest.drop n) else none
  | 4 :: b :: rest => some (.vbool (b != 0), rest)
  | _ => none

def decEntries : Nat → List Nat → Option (List (Int × Value))
  | 0, [] => some []
  | 0, _ :: _ => none
  | n + 1, k :: rest =>
    match decVal rest with
    | some (v, rest') =>
      match decEntries n rest' with
      | some d => some ((ofU64 k, v) :: d)
      | none => none
    | none => none
  | _ + 1, [] => none

def decodeData : List Nat → Option (List (Int × Value))
  | n :: rest => decEntries n rest
  | [] => none

/-- Recompose a big-endian byte string into the `Nat` it denotes
(`binary.BigEndian.Uint64`). -/
def ofBeBytes (b : Bytes) : Nat := b.foldl (fun acc x => acc * 256 + x) 0

/-- `rawEvent.marshal` (`part_024:1071`): big-endian timestamp followed by
the encoded value map. -/
def RawEvent.marshal (e : RawEvent) : Bytes :=
  tsBytes e.timestamp ++ encodeData e.data

/-- `rawEvent.unmarshal` (`part_024:1085`): read the timestamp header,
decode the map, `normalize` (promote) every leaf. -/
def RawEvent.unmarshal (b : Bytes) : Option RawEvent :=
  if b.length < 8 then none
  else
    match decodeData (b.drop 8) with
    | some d => some ⟨ofU64 (ofBeBytes (b.take 8)), d.map (fun kv => (kv.1, promote kv.2))⟩
    | none => none

/-! ### Codec round-trip -/

/-- The values representable in a Go `int64`. -/
def Int64Range (i : Int) : Prop := -(2 ^ 63) ≤ i ∧ i < 2 ^ 63

instance (i : Int) : Decidable (Int64Range i) := by unfold Int64Range; infer_instance

/-- A leaf is encodable without loss: integers fit in `int64`. -/
def valOK : Value → Bool
  | .vint i => decide (Int64Range i)
  | _ => true

/-- Entries have in-range keys and leaves. -/
def dataOK (d : List (Int × Value)) : Bool :=
  d.all (fun kv => decide (Int64Range kv.1) && valOK kv.2)

theorem toU64_lt (i : Int) : toU64 i < 2 ^ 64 := by
  unfold toU64
  omega

theorem ofU64_toU64 {i : Int} (h : Int64Range i) : ofU64 (toU64 i) = i := by
  obtain ⟨ha, hb⟩ := h
  have h1 : (0 : Int) ≤ i % (2 ^ 64 : Int) := Int.emod_nonneg i (by norm_num)
  have hc : ((toU64 i : Nat) : Int) = i % (2 ^ 64 : Int) := by
    show (((i % (2 ^ 64 : Int)).toNat : Nat) : Int) = i % (2 ^ 64 : Int)
    exact Int.toNat_of_nonneg h1
  unfold ofU64
  split <;> omega

theorem ofBeBytes_foldl (k : Nat) : ∀ (u acc : Nat), u < 256 ^ k →
    (beBytes k u).foldl (fun a x => a * 256 + x) acc = acc * 256 ^ k + u := by
  induction k with
  | zero => intro u acc hu; interval_cases u; simp [beBytes]
  | succ k ih =>
    intro u acc hu
    have hm : u % 256 ^ k < 256 ^ k := Nat.mod_lt _ (Nat.pos_pow_of_pos k (by norm_num))
    simp only [beBytes, List.foldl_cons]
    rw [ih _ _ hm]
    have hd : u / 256 ^ k * 256 ^ k + u % 256 ^ k = u := Nat.div_add_mod' u _
    ring_nf
    ring_nf at hd
    omega

theorem ofBeBytes_tsBytes (t : Int) : ofBeBytes (tsBytes t) = toU64 t := by
  unfold ofBeBytes tsBytes
  rw [ofBeBytes_foldl 8 _ 0 (toU64_lt t)]
  simp

theorem decVal_encVal (v : Value) (rest : List Nat) (h : valOK v = true) :
    decVal (encVal v ++ rest) = some (v, rest) := by
  cases v with
  | vint i =>
    simp only [valOK, decide_eq_true_eq] at h
    simp [encVal, decVal, ofU64_toU64 h]
  | vfloat bits => simp [encVal, decVal]
  | vstr s => simp [encVal, decVal]
  | vbool b => cases b <;> simp [encVal, decVal]

theorem decEntries_enc (d : List (Int × Value)) (h : dataOK d = true) :
    decEntries d.length (encEntries d) = some d := by
  induction d with
  | nil => rfl
  | cons kv rest ih =>
    simp only [dataOK, List.all_cons, Bool.and_eq_true, decide_eq_true_eq] at h
    obtain ⟨⟨hk, hv⟩, hrest⟩ := h
    simp only [encEntries, List.length_cons, decEntries]
    rw [decVal_encVal kv.2 _ hv]
    dsimp only
    rw [ih hrest]
    simp [ofU64_toU64 hk]

theorem decodeData_encodeData (d : List (Int × Value)) (h : dataOK d = true) :
    decodeData (encodeData d) = some d := by
  simp only [encodeData, decodeData]
  exact decEntries_enc d h

theorem tsBytes_length (t : Int) : (tsBytes t).length = 8 := beBytes_length 8 _

theorem unmarshal_marshal (e : RawEvent) (ht : Int64Range e.timestamp)
    (hd : dataOK e.data = true) : RawEvent.unmarshal e.marshal = some e := by
  unfold RawEvent.unmarshal RawEvent.marshal
  have hlen : (tsBytes e.timestamp ++ encodeData e.data).length = 8 + (encodeData e.data).length := by
    simp [tsBytes_length]
  rw [hlen]
  simp only [show ¬ (8 + (encodeData e.data).length < 8) by omega, if_false]
  have htake : (tsBytes e.timestamp ++ encodeData e.data).take 8 = tsBytes e.timestamp := by
    rw [List.take_append_of_le_length (by rw [tsBytes_length])]
    simp [tsBytes_length]
  have hdrop : (tsBytes e.timestamp ++ encodeData e.data).drop 8 = encodeData e.data := by
    rw [List.drop_append_of_le_length (by rw [tsBytes_length])]
    simp [tsBytes_length]
  rw [htake, hdrop, decodeData_encodeData e.data hd, ofBeBytes_tsBytes, ofU64_toU64 ht]
  simp [promote]

/-! ### Timestamp codec round-trip -/

theorem unshift_shift_of_nonneg {us : Int} (h : 0 ≤ us) :
    unshiftTime (shiftTime us) = us := by
  unfold shiftTime unshiftTime
  rw [Int.tdiv_eq_ediv h (by norm_num), Int.tmod_eq_emod h (by norm_num)]
  omega

theorem unshift_shift_of_whole_second {us : Int} (h : us.tmod 1000000 = 0) :
    unshiftTime (shiftTime us) = us := by
  unfold shiftTime unshiftTime
  have hsum := Int.tmod_add_tdiv us 1000000
  rw [h]
  omega

/-! ## Dup-sort storage (`transaction.go` over LMDB)

A `DUPSORT` sub-database keeps, for each key, its duplicate values sorted
in ascending unsigned byte order.  The list below is that sorted sequence;
`dupInsert` is `mdb_put`, and the cursor operation `MDB_GET_BOTH_RANGE`
(gomdb's `GET_RANGE`: position at the key, then at the first duplicate
that compares `≥` the supplied value) is `dupFindGE`. -/

/-- First duplicate `≥ v` in a sorted duplicate list. -/
def dupFindGE (v : Bytes) (dups : List Bytes) : Option Bytes :=
  dups.find? (fun w => ! lexLt w v)

/-- `mdb_put` into a sorted duplicate list. -/
def dupInsert (v : Bytes) : List Bytes → List Bytes
  | [] => [v]
  | w :: ws => if lexLt v w then v :: w :: ws else w :: dupInsert v ws

/-- `transaction.getAt` (`part_020:50`): `GET_RANGE` at `(key, pfx)`,
return the located duplicate only if it actually starts with `pfx`. -/
def txnGetAt (dups : List Bytes) (pfx : Bytes) : Option Bytes :=
  match dupFindGE pfx dups with
  | none => none
  | some v => if hasPfx pfx v then some v else none

/-- `transaction.delAt` (`part_020:171`): `GET_RANGE` at `(key, pfx)`,
delete the located duplicate if it starts with `pfx`, else no-op. -/
def txnDelAt (dups : List Bytes) (pfx : Bytes) : List Bytes :=
  match dupFindGE pfx dups with
  | none => dups
  | some v => if hasPfx pfx v then dups.erase v else dups

/-- `transaction.putAt` (`part_020:141`): `delAt` then `put`. -/
def txnPutAt (dups : List Bytes) (pfx value : Bytes) : List Bytes :=
  dupInsert value (txnDelAt dups pfx)

/-- `transaction.getAll` (`part_020:85`): position at the first duplicate
`≥ [0x00]` and walk `NEXT_DUP` to the end.  Every stored event value is at
least 8 bytes long, so the first duplicate already compares `≥ [0x00]` and
the walk yields the whole sorted list. -/
def txnGetAll (dups : List Bytes) : List Bytes :=
  dups

/-! ### Well-formed duplicate lists

Every value stored in a shard is the marshalled form of a raw event whose
timestamp fits an `int64` and whose data entries are in range; no two
duplicates share a timestamp header; the list is sorted. -/

/-- The raw events an engine run can actually store. -/
def RawOK (r : RawEvent) : Prop :=
  Int64Range r.timestamp ∧ dataOK r.data = true

instance (r : RawEvent) : Decidable (RawOK r) := by unfold RawOK; infer_instance

/-- A well-formed duplicate list is the byte image of a list of storable
raw events whose timestamps strictly ascend in the unsigned (byte-wise)
order LMDB sorts duplicates by. -/
def WFraws (raws : List RawEvent) : Prop :=
  (∀ r ∈ raws, RawOK r) ∧
  raws.Pairwise (fun r s => toU64 r.timestamp < toU64 s.timestamp)

theorem tsBytes_inj {a b : Int} (ha : Int64Range a) (hb : Int64Range b)
    (h : tsBytes a = tsBytes b) : a = b := by
  have := beBytes_inj 8 (toU64_lt a) (toU64_lt b) h
  have h1 := ofU64_toU64 ha
  have h2 := ofU64_toU64 hb
  rw [← h1, ← h2, this]

/-- A marshalled event never compares below its own timestamp header. -/
theorem marshal_not_lt_tsBytes (r : RawEvent) :
    lexLt r.marshal (tsBytes r.timestamp) = false := by
  unfold RawEvent.marshal
  exact lexLt_append_self _ _

theorem hasPfx_marshal_self (r : RawEvent) :
    hasPfx (tsBytes r.timestamp) r.marshal = true := hasPfx_append _ _

theorem hasPfx_marshal_iff {r : RawEvent} {t : Int} (hr : Int64Range r.timestamp)
    (ht : Int64Range t) :
    hasPfx (tsBytes t) r.marshal = true ↔ r.timestamp = t := by
  constructor
  · intro h
    obtain ⟨s, hs⟩ := (hasPfx_iff_append _ _).1 h
    unfold RawEvent.marshal at hs
    have hlen : (tsBytes r.timestamp).length = (tsBytes t).length := by
      rw [tsBytes_length, tsBytes_length]
    have : tsBytes r.timestamp = tsBytes t := by
      have h1 := congrArg (List.take 8) hs
      rw [List.take_append_of_le_length (by rw [tsBytes_length]),
        List.take_append_of_le_length (by rw [tsBytes_length])] at h1
      simpa [List.take_of_length_le (le_of_eq (tsBytes_length _)),
        List.take_of_length_le (le_of_eq (tsBytes_length _))] using h1
    exact tsBytes_inj hr ht this
  · intro h
    rw [← h]
    exact hasPfx_marshal_self r

/-- Comparison of two marshalled events with distinct timestamps is decided
by their timestamp headers. -/
theorem lexLt_marshal {r s : RawEvent} (hne : r.timestamp ≠ s.timestamp)
    (hr : Int64Range r.timestamp) (hs : Int64Range s.timestamp) :
    lexLt r.marshal s.marshal = decide (toU64 r.timestamp < toU64 s.timestamp) := by
  unfold RawEvent.marshal
  have hne' : tsBytes r.timestamp ≠ tsBytes s.timestamp := by
    intro h; exact hne (tsBytes_inj hr hs h)
  rw [lexLt_append_of_ne _ _ _ _ (by rw [tsBytes_length, tsBytes_length]) hne']
  unfold tsBytes
  exact beBytes_lt 8 _ _ (toU64_lt _) (toU64_lt _)

/-- A marshalled event compared against a bare timestamp header behaves like
its own header against it. -/
theorem lexLt_marshal_tsBytes {r : RawEvent} {t : Int} (hne : r.timestamp ≠ t)
    (hr : Int64Range r.timestamp) (ht : Int64Range t) :
    lexLt r.marshal (tsBytes t) = decide (toU64 r.timestamp < toU64 t) := by
  unfold RawEvent.marshal
  have hne' : tsBytes r.timestamp ≠ tsBytes t := by
    intro h; exact hne (tsBytes_inj hr ht h)
  have : tsBytes t = tsBytes t ++ [] := by simp
  rw [this, lexLt_append_of_ne _ _ _ _ (by rw [tsBytes_length, tsBytes_length]) hne']
  unfold tsBytes
  exact beBytes_lt 8 _ _ (toU64_lt _) (toU64_lt _)

theorem toU64_inj {a b : Int} (ha : Int64Range a) (hb : Int64Range b)
    (h : toU64 a = toU64 b) : a = b := by
  rw [← ofU64_toU64 ha, ← ofU64_toU64 hb, h]

/-- A marshalled event does not start with the header of a different
timestamp. -/
theorem hasPfx_marshal_false {r : RawEvent} {t : Int} (hne : r.timestamp ≠ t)
    (hr : Int64Range r.timestamp) (ht : Int64Range t) :
    hasPfx (tsBytes t) r.marshal = false := by
  cases h : hasPfx (tsBytes t) r.marshal
  · rfl
  · exact absurd ((hasPfx_marshal_iff hr ht).1 h) hne

/-- `getAt` on a well-formed duplicate list finds exactly the stored event
with the requested timestamp. -/
theorem txnGetAt_wf {raws : List RawEvent} (hwf : WFraws raws) {t : Int}
    (ht : Int64Range t) :
    txnGetAt (raws.map RawEvent.marshal) (tsBytes t) =
      (raws.find? (fun r => decide (r.timestamp = t))).map RawEvent.marshal := by
  obtain ⟨hok, hsort⟩ := hwf
  induction raws with
  | nil => rfl
  | cons r rest ih =>
    have hrok := hok r (List.mem_cons_self r rest)
    have hok' : ∀ x ∈ rest, RawOK x := fun x hx => hok x (List.mem_cons_of_mem r hx)
    have hsort' := List.Pairwise.of_cons hsort
    by_cases hts : r.timestamp = t
    · subst hts
      have h1 : (! lexLt r.marshal (tsBytes r.timestamp)) = true := by
        rw [marshal_not_lt_tsBytes]; rfl
      simp [txnGetAt, dupFindGE, List.find?_cons, h1, hasPfx_marshal_self]
    · have hd : lexLt r.marshal (tsBytes t) = decide (toU64 r.timestamp < toU64 t) :=
        lexLt_marshal_tsBytes hts hrok.1 ht
      by_cases hlt : toU64 r.timestamp < toU64 t
      · -- the head sorts before the requested header: the cursor skips it
        have h2 : (! lexLt r.marshal (tsBytes t)) = false := by
          rw [hd]; simp [hlt]
        calc txnGetAt ((r :: rest).map RawEvent.marshal) (tsBytes t)
            = txnGetAt (rest.map RawEvent.marshal) (tsBytes t) := by
              simp [txnGetAt, dupFindGE, List.find?_cons, h2]
          _ = _ := by rw [ih hok' hsort']; simp [List.find?_cons, hts]
      · -- the head already sorts at or past the header without carrying it:
        -- nothing with this timestamp is stored
        have hgt : toU64 t < toU64 r.timestamp := by
          rcases Nat.lt_trichotomy (toU64 r.timestamp) (toU64 t) with h | h | h
          · exact absurd h hlt
          · exact absurd (toU64_inj hrok.1 ht h) hts
          · exact h
        have h3 : (! lexLt r.marshal (tsBytes t)) = true := by
          rw [hd]; simp [hlt]
        have hnone : rest.find? (fun r => decide (r.timestamp = t)) = none := by
          rw [List.find?_eq_none]
          intro s hs hdec
          have hst : s.timestamp = t := by simpa using hdec
          have hrel := List.rel_of_pairwise_cons hsort hs
          rw [hst] at hrel
          omega
        simp [txnGetAt, dupFindGE, List.find?_cons, h3,
          hasPfx_marshal_false hts hrok.1 ht, hts, hnone]

/-- `delAt` on a well-formed duplicate list removes exactly the stored event
with the requested timestamp. -/
theorem txnDelAt_wf {raws : List RawEvent} (hwf : WFraws raws) {t : Int}
    (ht : Int64Range t) :
    txnDelAt (raws.map RawEvent.marshal) (tsBytes t) =
      (raws.filter (fun r => ! decide (r.timestamp = t))).map RawEvent.marshal := by
  obtain ⟨hok, hsort⟩ := hwf
  induction raws with
  | nil => rfl
  | cons r rest ih =>
    have hrok := hok r (List.mem_cons_self r rest)
    have hok' : ∀ x ∈ rest, RawOK x := fun x hx => hok x (List.mem_cons_of_mem r hx)
    have hsort' := List.Pairwise.of_cons hsort
    by_cases hts : r.timestamp = t
    · subst hts
      have hall : rest.filter (fun s => ! decide (s.timestamp = r.timestamp)) = rest := by
        rw [List.filter_eq_self]
        intro s hs
        have hrel := List.rel_of_pairwise_cons hsort hs
        simp only [Bool.not_eq_true', decide_eq_false_iff_not]
        intro hc; rw [hc] at hrel; omega
      have h1 : (! lexLt r.marshal (tsBytes r.timestamp)) = true := by
        rw [marshal_not_lt_tsBytes]; rfl
      simp [txnDelAt, dupFindGE, List.find?_cons, h1, hasPfx_marshal_self,
        List.filter_cons, hall]
    · have hd : lexLt r.marshal (tsBytes t) = decide (toU64 r.timestamp < toU64 t) :=
        lexLt_marshal_tsBytes hts hrok.1 ht
      by_cases hlt : toU64 r.timestamp < toU64 t
      · have h2 : (! lexLt r.marshal (tsBytes t)) = false := by
          rw [hd]; simp [hlt]
        have hihs := ih hok' hsort'
        simp only [txnDelAt, dupFindGE] at hihs
        have hfilter : (r :: rest).filter (fun s => ! decide (s.timestamp = t)) =
            r :: rest.filter (fun s => ! decide (s.timestamp = t)) := by
          simp [List.filter_cons, hts]
        rw [hfilter]
        simp only [List.map_cons, txnDelAt, dupFindGE, List.find?_cons, h2]
        cases hcase : List.find? (fun w => ! lexLt w (tsBytes t))
            (rest.map RawEvent.marshal) with
        | none =>
          rw [hcase] at hihs
          simp only [List.map_cons]
          rw [← hihs]
        | some w =>
          rw [hcase] at hihs
          by_cases hw : hasPfx (tsBytes t) w = true
          · simp only [hw, if_true] at hihs ⊢
            have hwne : (r.marshal == w) = false := by
              rw [beq_eq_false_iff_ne]
              intro hc
              rw [← hc] at hw
              rw [hasPfx_marshal_false hts hrok.1 ht] at hw
              exact Bool.false_ne_true hw
            rw [List.erase_cons_tail]
            · rw [hihs]
            · rw [hwne]
              exact Bool.false_ne_true
          · have hw' : hasPfx (tsBytes t) w = false := by
              cases hx : hasPfx (tsBytes t) w
              · rfl
              · exact absurd hx hw
            simp only [hw', Bool.false_eq_true, if_false] at hihs ⊢
            rw [← hihs]
      · have hgt : toU64 t < toU64 r.timestamp := by
          rcases Nat.lt_trichotomy (toU64 r.timestamp) (toU64 t) with h | h | h
          · exact absurd h hlt
          · exact absurd (toU64_inj hrok.1 ht h) hts
          · exact h
        have h3 : (! lexLt r.marshal (tsBytes t)) = true := by
          rw [hd]; simp [hlt]
        have hall : rest.filter (fun s => ! decide (s.timestamp = t)) = rest := by
          rw [List.filter_eq_self]
          intro s hs
          have hrel := List.rel_of_pairwise_cons hsort hs
          simp only [Bool.not_eq_true', decide_eq_false_iff_not]
          intro hc; rw [hc] at hrel; omega
        simp [txnDelAt, dupFindGE, List.find?_cons, h3,
          hasPfx_marshal_false hts hrok.1 ht, List.filter_cons, hts, hall]

/-! ## Generic association-list helpers (Go map / single-value DBI) -/

def assocGet {α β : Type} [DecidableEq α] (l : List (α × β)) (k : α) : Option β :=
  (l.find? (fun e => decide (e.1 = k))).map (·.2)

def assocPut {α β : Type} [DecidableEq α] (l : List (α × β)) (k : α) (v : β) :
    List (α × β) :=
  if l.any (fun e => decide (e.1 = k)) then
    l.map (fun e => if e.1 = k then (k, v) else e)
  else l ++ [(k, v)]

def assocDel {α β : Type} [DecidableEq α] (l : List (α × β)) (k : α) : List (α × β) :=
  l.filter (fun e => decide (e.1 ≠ k))

/-- Pointwise update of an `Int`-indexed family. -/
def updf {α : Type} (f : Int → α) (k : Int) (v : α) : Int → α :=
  fun j => if j = k then v else f j

/-! ## Float64 conversions

`Property.Cast` converts between numeric kinds.  The engine never computes
with floats — it only stores bit patterns — but the cast's cross branches
need a definition.  These functions implement Go's `int64(float64)`
(truncation toward zero) and `float64(int64)` (round to nearest even) on
IEEE-754 bit patterns; out-of-range and NaN/Inf conversions are
implementation-defined in Go and modelled as 0. -/

def f64ToInt (bits : Nat) : Int :=
  let sign := bits / 2 ^ 63
  let expo := bits / 2 ^ 52 % 2 ^ 11
  let frac := bits % 2 ^ 52
  if expo = 2047 then 0
  else if expo = 0 then 0
  else
    let mag : Nat :=
      if 1075 ≤ expo then (2 ^ 52 + frac) * 2 ^ (expo - 1075)
      else (2 ^ 52 + frac) / 2 ^ (1075 - expo)
    if sign = 1 then -(mag : Int) else (mag : Int)

def intToF64 (i : Int) : Nat :=
  if i = 0 then 0
  else
    let n := i.natAbs
    let k := Nat.log2 n
    let signBit := if i < 0 then 2 ^ 63 else 0
    if k ≤ 52 then signBit + (k + 1023) * 2 ^ 52 + (n * 2 ^ (52 - k) - 2 ^ 52)
    else
      let q := n / 2 ^ (k - 52)
      let r := n % 2 ^ (k - 52)
      let half := 2 ^ (k - 52 - 1)
      let q' := if half < r || (decide (r = half) && decide (q % 2 = 1)) then q + 1 else q
      if q' = 2 ^ 53 then signBit + (k + 1 + 1023) * 2 ^ 52
      else signBit + (k + 1023) * 2 ^ 52 + (q' - 2 ^ 52)

/-! ## Schema (`db/types.go`, `db/property.go`) -/

namespace DataType

def Boolean : String := "boolean"
def Factor : String := "factor"
def Float : String := "float"
def Integer : String := "integer"
def String : String := "string"

end DataType

/-- `Property` (`db/property.go:8`).  The name is carried as its byte
string, like every other string the engine stores or compares. -/
structure Property where
  ID : Int
  Name : Bytes
  DataType : String
  Transient : Bool
deriving DecidableEq, Repr

/-- Error kinds surfaced by the engine (`db/error.go` and the literal
`fmt.Errorf` messages of `part_024`).  `nilEnvPanic` and `emptyKeyPanic`
stand for Go runtime panics (nil LMDB environment dereference; `&key[0]`
on an empty byte slice); `storageError` for a substrate write failure. -/
inductive DBError where
  | tableNotOpen
  | objectIDRequired
  | propertyNotFound
  | propertyExists
  | invalidPropertyName
  | invalidDataType
  | factorNotFound
  | invalidFactorValue
  | codecError
  | storageError
  | nilEnvPanic
  | emptyKeyPanic
deriving DecidableEq, Repr

instance {ε α : Type} [DecidableEq ε] [DecidableEq α] : DecidableEq (Except ε α) :=
  fun x y =>
    match x, y with
    | .ok a, .ok b =>
      if h : a = b then isTrue (by rw [h]) else isFalse (fun hc => h (Except.ok.inj hc))
    | .error a, .error b =>
      if h : a = b then isTrue (by rw [h]) else isFalse (fun hc => h (Except.error.inj hc))
    | .ok _, .error _ => isFalse (fun hc => Except.noConfusion hc)
    | .error _, .ok _ => isFalse (fun hc => Except.noConfusion hc)

/-- A `\w` byte: `[0-9A-Za-z_]`. -/
def isWordByte (c : Nat) : Bool :=
  (48 ≤ c && c ≤ 57) || (65 ≤ c && c ≤ 90) || (97 ≤ c && c ≤ 122) || c = 95

/-- `Property.Validate` (`db/property.go:19`): non-blank `^\w+$` name and
a known data type. -/
def Property.Validate (p : Property) : Option DBError :=
  if p.Name = [] ∨ ¬ (p.Name.all isWordByte) then
    some .invalidPropertyName
  else if p.DataType = DataType.Factor ∨ p.DataType = DataType.String ∨
      p.DataType = DataType.Integer ∨ p.DataType = DataType.Float ∨
      p.DataType = DataType.Boolean then
    none
  else some .invalidDataType

/-- `Property.Cast` (`db/property.go:47`). -/
def Property.Cast (p : Property) (v : Value) : Value :=
  if p.DataType = DataType.Factor ∨ p.DataType = DataType.String then
    match v with
    | .vstr s => .vstr s
    | _ => .vstr []
  else if p.DataType = DataType.Integer then
    match promote v with
    | .vint i => .vint i
    | .vfloat bits => .vint (f64ToInt bits)
    | _ => .vint 0
  else if p.DataType = DataType.Float then
    match promote v with
    | .vfloat bits => .vfloat bits
    | .vint i => .vfloat (intToF64 i)
    | _ => .vint 0
  else if p.DataType = DataType.Boolean then
    match v with
    | .vbool b => .vbool b
    | _ => .vbool false
  else v

/-! ## LRU factor cache

Modelled from the spec: the `cache` type (`newCache`, `getValue`, `getKey`,
`add`) is referenced by `table.go` but its source file is not part of the
repository snapshot.  §4.2 specifies a fixed-capacity (1000) bidirectional
associative cache with least-recently-used eviction on either access.  The
entry list is kept most-recent-first; a hit moves the entry to the front,
`add` inserts at the front, evicting beyond capacity. -/

def FactorCacheSize : Nat := 1000

structure FactorCache where
  entries : List (Bytes × Int)
deriving DecidableEq, Repr

def FactorCache.getValue (c : FactorCache) (s : Bytes) : Option Int × FactorCache :=
  match c.entries.find? (fun e => decide (e.1 = s)) with
  | some e => (some e.2, ⟨e :: c.entries.filter (fun x => decide (x.1 ≠ s))⟩)
  | none => (none, c)

def FactorCache.getKey (c : FactorCache) (i : Int) : Option Bytes × FactorCache :=
  match c.entries.find? (fun e => decide (e.2 = i)) with
  | some e => (some e.1, ⟨e :: c.entries.filter (fun x => decide (x ≠ e))⟩)
  | none => (none, c)

def FactorCache.add (c : FactorCache) (s : Bytes) (i : Int) : FactorCache :=
  ⟨((s, i) :: c.entries.filter (fun x => decide (x.1 ≠ s))).take FactorCacheSize⟩

/-! ## Factor DBI (`factors/{propertyID}`)

One single-value DBI per factor property.  Its keys fall into three
disjoint classes (`part_024:888`): the sequence counter `"+"`, forward
entries `">" + truncateFactor(s)` and reverse entries `"<" + decimal(i)`;
the embedding splits the DBI into one field per class (the classes can
never collide: they start with distinct bytes, and `decimal` is injective). -/

structure FactorDB where
  seq : Option Int
  fwd : List (Bytes × Int)
  rev : List (Int × Bytes)
deriving DecidableEq, Repr

def emptyFactorDB : FactorDB := ⟨none, [], []⟩

/-- `maxKeySize` (`part_024:22`). -/
def maxKeySize : Nat := 500

/-- `truncateFactor` (`part_024:900`). -/
def truncateFactor (value : Bytes) : Bytes :=
  if value.length > maxKeySize then value.take maxKeySize else value

/-! ## Table -/

/-- The in-memory `Table` state (`part_024:35`).  `isOpen` is `env != nil`;
`shards` is the per-shard dup-sort DBI contents (`shards/{i}`, key =
object id, values = sorted duplicates); substrate statistics and the
`stat` counters (wall-clock durations) are outside the model. -/
structure Table where
  isOpen : Bool
  name : String
  shardCount : Nat
  maxPermanentID : Int
  maxTransientID : Int
  properties : List (Bytes × Property)
  propertiesByID : List (Int × Property)
  caches : Int → FactorCache
  factors : Int → FactorDB
  shards : List (List (Bytes × List Bytes))

/-- FNV-1a 64-bit over the id bytes (`hash` package, `part_007:17`). -/
def fnv1a64 (b : Bytes) : Nat :=
  b.foldl (fun h x => ((h ^^^ x) * 1099511628211) % 2 ^ 64) 14695981039346656037

/-- `hash.Local` (`part_007:8`): the low 32 bits. -/
def hashLocal (id : Bytes) : Nat := fnv1a64 id % 2 ^ 32

namespace Table

/-- `Table.shardIndex` (`part_024:874`). -/
def shardIndex (t : Table) (id : Bytes) : Nat := hashLocal id % t.shardCount

/-- Duplicate list stored under `(shard i, key)`; an absent key reads as
the empty list (LMDB `NotFound`). -/
def dups (t : Table) (i : Nat) (key : Bytes) : List Bytes :=
  (assocGet (t.shards.getD i []) key).getD []

def setDups (t : Table) (i : Nat) (key : Bytes) (d : List Bytes) : Table :=
  { t with shards := t.shards.set i (assocPut (t.shards.getD i []) key d) }

/-- `Table.factorize` (`part_024:739`).  The state pair threads the LRU
cache and factor-DBI mutations; `createIfNotExists = false` on a full miss
returns `(0, nil)` — no error — in this draft. -/
def factorize (t : Table) (propertyID : Int) (value : Bytes)
    (createIfNotExists : Bool) : Except DBError Int × Table :=
  if value = [] then (.ok 0, t)
  else
    match (t.caches propertyID).getValue value with
    | (some sequence, c1) => (.ok sequence, { t with caches := updf t.caches propertyID c1 })
    | (none, _) =>
      if ¬ t.isOpen then (.error .nilEnvPanic, t)  -- t.txn on a nil env
      else
        let val : Int :=
          match assocGet (t.factors propertyID).fwd (truncateFactor value) with
          | some v => v
          | none => 0
        if val ≠ 0 then
          (.ok val,
            { t with caches := updf t.caches propertyID ((t.caches propertyID).add value val) })
        else if createIfNotExists then
          -- addFactor (part_024:781)
          let db := t.factors propertyID
          let index : Int := (match db.seq with | none => 0 | some u => u) + 1
          let value' := truncateFactor value
          let db' : FactorDB :=
            ⟨some index, assocPut db.fwd value' index, assocPut db.rev index value'⟩
          (.ok index,
            { t with factors := updf t.factors propertyID db',
                     caches := updf t.caches propertyID
                       ((t.caches propertyID).add value' index) })
        else (.ok 0, t)

/-- `Table.defactorize` (`part_024:839`). -/
def defactorize (t : Table) (propertyID : Int) (index : Int) :
    Except DBError Bytes × Table :=
  if index = 0 then (.ok [], t)
  else
    match (t.caches propertyID).getKey index with
    | (some key, c1) => (.ok key, { t with caches := updf t.caches propertyID c1 })
    | (none, _) =>
      if ¬ t.isOpen then (.error .nilEnvPanic, t)
      else
        match assocGet (t.factors propertyID).rev index with
        | none => (.error .factorNotFound, t)
        | some data =>
          (.ok data,
            { t with caches :=
                (updf t.caches propertyID ((t.caches propertyID).add data index)) })

/-- Public `Table.Factorize` (`part_024:731`): takes the lock and calls
`factorize` with `createIfNotExists = false`.  It does NOT check that the
table is open. -/
def Factorize (t : Table) (propertyID : Int) (value : Bytes) :
    Except DBError Int × Table :=
  t.factorize propertyID value false

/-- Public `Table.Defactorize` (`part_024:832`): no open check either. -/
def Defactorize (t : Table) (propertyID : Int) (index : Int) :
    Except DBError Bytes × Table :=
  t.defactorize propertyID index

/-- `Table.Stat` (`part_024:908`): no lock and no open check; on a closed
table `t.env.Stat()` dereferences a nil environment.  The environment
statistics themselves are substrate values outside the model; only the
control path is embedded. -/
def Stat (t : Table) : Except DBError Unit :=
  if t.isOpen then .ok () else .error .nilEnvPanic

end Table

/-- An external event (`part_024:1059`): a wall-clock timestamp (held at
microsecond resolution as µs since the epoch) and data keyed by property
name.  The Go `map[string]interface{}` is an association list kept
strictly sorted by name, the canonical form of the map. -/
structure Event where
  Timestamp : Int
  Data : List (Bytes × Value)
deriving DecidableEq, Repr

namespace Table

/-- Body of `Table.toRawEvent` (`part_024:988`): resolve each name, cast,
factorize factor values (`createIfNotExists = true`), key by property ID.
Go iterates the map in unspecified order; the embedding fixes the
canonical (name-sorted) order, which determines the same resulting map. -/
def toRawLoop (t : Table) : List (Bytes × Value) → List (Int × Value) →
    Except DBError (List (Int × Value)) × Table
  | [], acc => (.ok acc, t)
  | (k, v) :: rest, acc =>
    match assocGet t.properties k with
    | none => (.error .propertyNotFound, t)
    | some p =>
      let v' := p.Cast v
      if p.DataType = DataType.Factor then
        match v' with
        | .vstr s =>
          match t.factorize p.ID s true with
          | (.ok idx, t') => toRawLoop t' rest (mapPut intLt p.ID (.vint idx) acc)
          | (.error er, t') => (.error er, t')
        | _ =>
          -- unreachable: Cast yields a string for factor properties
          -- (the Go type assertion v.(string) would panic here)
          (.error .invalidFactorValue, t)
      else toRawLoop t rest (mapPut intLt p.ID v' acc)

/-- `Table.toRawEvent` (`part_024:981`). -/
def toRawEvent (t : Table) (e : Event) : Except DBError RawEvent × Table :=
  match toRawLoop t e.Data [] with
  | (.ok d, t') => (.ok ⟨shiftTime e.Timestamp, d⟩, t')
  | (.error er, t') => (.error er, t')

/-- Body of `Table.toEvent` (`part_024:1020`): resolve each ID (unknown
IDs — deleted properties — are skipped), promote, defactorize factor
values, key by property name. -/
def toEvLoop (t : Table) : List (Int × Value) → List (Bytes × Value) →
    Except DBError (List (Bytes × Value)) × Table
  | [], acc => (.ok acc, t)
  | (k, v) :: rest, acc =>
    match assocGet t.propertiesByID k with
    | none => toEvLoop t rest acc
    | some p =>
      let v' := promote v
      if p.DataType = DataType.Factor then
        match v' with
        | .vint iv =>
          match t.defactorize p.ID iv with
          | (.ok s, t') => toEvLoop t' rest (mapPut lexLt p.Name (.vstr s) acc)
          | (.error er, t') => (.error er, t')
        | _ => (.error .invalidFactorValue, t)
      else toEvLoop t rest (mapPut lexLt p.Name v' acc)

/-- `Table.toEvent` (`part_024:1013`). -/
def toEvent (t : Table) (r : RawEvent) : Except DBError Event × Table :=
  match toEvLoop t r.data [] with
  | (.ok d, t') => (.ok ⟨unshiftTime r.timestamp, d⟩, t')
  | (.error er, t') => (.error er, t')

/-- `Table.getRawEvent` (`part_024:469`): `getAt` by timestamp header in a
read transaction, then unmarshal. -/
def getRawEvent (t : Table) (id : Bytes) (timestamp : Int) :
    Except DBError (Option RawEvent) :=
  if id = [] then .error .objectIDRequired
  else
    match txnGetAt (t.dups (t.shardIndex id) id) (tsBytes timestamp) with
    | none => .ok none
    | some b =>
      match RawEvent.unmarshal b with
      | some r => .ok (some r)
      | none => .error .codecError

/-- Unmarshal every duplicate (`part_024:530`). -/
def unmarshalAll : List Bytes → Option (List RawEvent)
  | [] => some []
  | b :: rest =>
    match RawEvent.unmarshal b with
    | some r =>
      match unmarshalAll rest with
      | some rs => some (r :: rs)
      | none => none
    | none => none

/-- `Table.getRawEvents` (`part_024:506`): `getAll` then unmarshal each, in
store (duplicate) order. -/
def getRawEvents (t : Table) (id : Bytes) : Except DBError (List RawEvent) :=
  if id = [] then .error .objectIDRequired
  else
    match unmarshalAll (txnGetAll (t.dups (t.shardIndex id) id)) with
    | some rs => .ok rs
    | none => .error .codecError

/-- `Table.GetEvent` (`part_024:426`). -/
def GetEvent (t : Table) (id : Bytes) (timestampUs : Int) :
    Except DBError (Option Event) × Table :=
  if ¬ t.isOpen then (.error .tableNotOpen, t)
  else
    match t.getRawEvent id (shiftTime timestampUs) with
    | .error er => (.error er, t)
    | .ok none => (.ok none, t)
    | .ok (some rawEvent) =>
      match t.toEvent rawEvent with
      | (.ok ev, t') => (.ok (some ev), t')
      | (.error er, t') => (.error er, t')

/-- Conversion loop of `Table.GetEvents` (`part_024:458`). -/
def toEventsLoop (t : Table) : List RawEvent → List Event →
    Except DBError (List Event) × Table
  | [], acc => (.ok acc.reverse, t)
  | r :: rest, acc =>
    match t.toEvent r with
    | (.ok ev, t') => toEventsLoop t' rest (ev :: acc)
    | (.error er, t') => (.error er, t')

/-- `Table.GetEvents` (`part_024:444`). -/
def GetEvents (t : Table) (id : Bytes) : Except DBError (List Event) × Table :=
  if ¬ t.isOpen then (.error .tableNotOpen, t)
  else
    match t.getRawEvents id with
    | .error er => (.error er, t)
    | .ok raws => t.toEventsLoop raws []

/-- `Table.insertEvent` (`part_024:584`): convert, merge with the existing
raw event at the same shifted timestamp (a failed read is treated as no
existing event: the code drops `getRawEvent`'s error), marshal, `putAt`. -/
def insertEvent (t : Table) (id : Bytes) (e : Event) : Except DBError Unit × Table :=
  if id = [] then (.error .objectIDRequired, t)
  else
    match t.toRawEvent e with
    | (.error er, t') => (.error er, t')
    | (.ok rawEvent, t1) =>
      let merged : RawEvent :=
        match t1.getRawEvent id rawEvent.timestamp with
        | .ok (some current) => ⟨rawEvent.timestamp, rawMerge current.data rawEvent.data⟩
        | _ => rawEvent
      let i := t1.shardIndex id
      let dnew := txnPutAt (t1.dups i id) (tsBytes merged.timestamp) merged.marshal
      (.ok (), t1.setDups i id dnew)

/-- `Table.InsertEvent` (`part_024:543`). -/
def InsertEvent (t : Table) (id : Bytes) (e : Event) : Except DBError Unit × Table :=
  if ¬ t.isOpen then (.error .tableNotOpen, t)
  else t.insertEvent id e

/-- `Table.InsertEvents` (`part_024:553`): fold of `insertEvent`, stopping
at the first error. -/
def InsertEvents (t : Table) (id : Bytes) (events : List Event) :
    Except DBError Unit × Table :=
  if ¬ t.isOpen then (.error .tableNotOpen, t)
  else
    let rec go (t : Table) : List Event → Except DBError Unit × Table
      | [] => (.ok (), t)
      | e :: rest =>
        match t.insertEvent id e with
        | (.ok _, t') => go t' rest
        | (.error er, t') => (.error er, t')
    go t events

/-- `Table.InsertObjects` (`part_024:568`). -/
def InsertObjects (t : Table) (objects : List (Bytes × List Event)) :
    Except DBError Unit × Table :=
  if ¬ t.isOpen then (.error .tableNotOpen, t)
  else
    let rec goEvents (t : Table) (id : Bytes) : List Event → Except DBError Unit × Table
      | [] => (.ok (), t)
      | e :: rest =>
        match t.insertEvent id e with
        | (.ok _, t') => goEvents t' id rest
        | (.error er, t') => (.error er, t')
    let rec goObjects (t : Table) : List (Bytes × List Event) → Except DBError Unit × Table
      | [] => (.ok (), t)
      | (id, events) :: rest =>
        match goEvents t id events with
        | (.ok _, t') => goObjects t' rest
        | (.error er, t') => (.error er, t')
    goObjects t objects

/-- `Table.DeleteEvent` (`part_024:635`): `delAt` by timestamp header.
There is no empty-id guard: `delAt` takes `&key[0]` of the id bytes, which
panics on an empty id. -/
def DeleteEvent (t : Table) (id : Bytes) (timestampUs : Int) :
    Except DBError Unit × Table :=
  if ¬ t.isOpen then (.error .tableNotOpen, t)
  else if id = [] then (.error .emptyKeyPanic, t)
  else
    let i := t.shardIndex id
    let dnew := txnDelAt (t.dups i id) (tsBytes (shiftTime timestampUs))
    (.ok (), t.setDups i id dnew)

/-- `Table.DeleteEvents` (`part_024:661`): `del` of the whole duplicate
key. -/
def DeleteEvents (t : Table) (id : Bytes) : Except DBError Unit × Table :=
  if ¬ t.isOpen then (.error .tableNotOpen, t)
  else
    let i := t.shardIndex id
    (.ok (), { t with shards := t.shards.set i (assocDel (t.shards.getD i []) id) })

/-! ### Schema operations

`save()` persists the meta record inside a write transaction; its outcome
depends on the substrate and is passed in as the `saveOk` parameter. -/

/-- `Table.CreateProperty` (`part_024:294`). -/
def CreateProperty (t : Table) (name : Bytes) (dataType : String) (transient : Bool)
    (saveOk : Bool) : Except DBError Property × Table :=
  if ¬ t.isOpen then (.error .tableNotOpen, t)
  else if (assocGet t.properties name).isSome then (.error .propertyExists, t)
  else
    match Property.Validate ⟨0, name, dataType, transient⟩ with
    | some er => (.error er, t)
    | none =>
      let (pid, t1) :=
        if transient then
          (t.maxTransientID - 1, { t with maxTransientID := t.maxTransientID - 1 })
        else
          (t.maxPermanentID + 1, { t with maxPermanentID := t.maxPermanentID + 1 })
      let p : Property := ⟨pid, name, dataType, transient⟩
      if saveOk then
        (.ok p,
          { t1 with
            properties := assocPut t1.properties name p,
            propertiesByID := assocPut t1.propertiesByID pid p,
            caches :=
              if dataType = DataType.Factor then updf t1.caches pid ⟨[]⟩ else t1.caches })
      else
        -- the maps are restored; the incremented ID counter is not
        (.error .storageError, t1)

/-- `Table.RenameProperty` (`part_024:358`): clones the property under the
new name in the by-name map only; `propertiesByID` keeps the old object. -/
def RenameProperty (t : Table) (oldName newName : Bytes) (saveOk : Bool) :
    Except DBError Property × Table :=
  if ¬ t.isOpen then (.error .tableNotOpen, t)
  else
    match assocGet t.properties oldName with
    | none => (.error .propertyNotFound, t)
    | some p0 =>
      if (assocGet t.properties newName).isSome then (.error .propertyExists, t)
      else
        let p := { p0 with Name := newName }
        if saveOk then
          (.ok p, { t with properties := assocPut (assocDel t.properties oldName) newName p })
        else (.error .storageError, t)

/-- `Table.DeleteProperty` (`part_024:385`). -/
def DeleteProperty (t : Table) (name : Bytes) (saveOk : Bool) :
    Except DBError Unit × Table :=
  if ¬ t.isOpen then (.error .tableNotOpen, t)
  else
    match assocGet t.properties name with
    | none => (.error .propertyNotFound, t)
    | some p =>
      if saveOk then
        (.ok (),
          { t with
            properties := assocDel t.properties name,
            propertiesByID := assocDel t.propertiesByID p.ID })
      else (.error .storageError, t)

/-- `Table.Properties` (`part_024:254`). -/
def Properties (t : Table) : Except DBError (List (Bytes × Property)) :=
  if ¬ t.isOpen then .error .tableNotOpen else .ok t.properties

/-- `Table.PropertiesByID` (`part_024:264`). -/
def PropertiesByID (t : Table) : Except DBError (List (Int × Property)) :=
  if ¬ t.isOpen then .error .tableNotOpen else .ok t.propertiesByID

/-- `Table.Property` (`part_024:274`): a missing name is `(nil, nil)`, not
an error. -/
def Property (t : Table) (name : Bytes) : Except DBError (Option Sky.Property) :=
  if ¬ t.isOpen then .error .tableNotOpen else .ok (assocGet t.properties name)

/-- `Table.PropertyByID` (`part_024:284`). -/
def PropertyByID (t : Table) (id : Int) : Except DBError (Option Sky.Property) :=
  if ¬ t.isOpen then .error .tableNotOpen else .ok (assocGet t.propertiesByID id)

/-- `Table.Keys` (`part_024:716`): `ForEach` (which refuses a closed
table) walks every shard with `NEXT_NODUP`, then the keys are sorted.
A key exists in LMDB iff it has at least one duplicate left. -/
def Keys (t : Table) : Except DBError (List Bytes) :=
  if ¬ t.isOpen then .error .tableNotOpen
  else
    .ok (((t.shards.map (fun sh => (sh.filter (fun kv => ! kv.2.isEmpty)).map (·.1))).flatten).mergeSort
      (fun a b => ! lexLt b a))

end Table

/-! ## Association-list lemmas -/

theorem assocGet_mem {α β : Type} [DecidableEq α] {l : List (α × β)} {k : α} {v : β}
    (h : assocGet l k = some v) : (k, v) ∈ l := by
  unfold assocGet at h
  cases hf : l.find? (fun e => decide (e.1 = k)) with
  | none => rw [hf] at h; cases h
  | some e =>
    rw [hf] at h
    have hm := List.mem_of_find?_eq_some hf
    have hp := List.find?_some hf
    simp only [decide_eq_true_eq] at hp
    cases h
    cases e
    cases hp
    exact hm

theorem assocGet_eq_none {α β : Type} [DecidableEq α] {l : List (α × β)} {k : α}
    (h : assocGet l k = none) : ∀ v, (k, v) ∉ l := by
  intro v hv
  unfold assocGet at h
  cases hf : l.find? (fun e => decide (e.1 = k)) with
  | some e => rw [hf] at h; cases h
  | none =>
    rw [List.find?_eq_none] at hf
    exact absurd (by simp : decide (((k, v) : α × β).1 = k) = true) (by simpa using hf _ hv)

theorem mem_assocGet {α β : Type} [DecidableEq α] {l : List (α × β)} {k : α} {v : β}
    (hnd : (l.map (·.1)).Nodup) (h : (k, v) ∈ l) : assocGet l k = some v := by
  induction l with
  | nil => cases h
  | cons e rest ih =>
    rcases List.mem_cons.1 h with h1 | h1
    · rw [← h1]
      simp [assocGet, List.find?_cons]
    · have hne : e.1 ≠ k := by
        intro hc
        have : k ∈ rest.map (·.1) := List.mem_map.2 ⟨(k, v), h1, rfl⟩
        rw [List.map_cons, List.nodup_cons] at hnd
        exact hnd.1 (hc ▸ this)
      have := ih (by rw [List.map_cons, List.nodup_cons] at hnd; exact hnd.2) h1
      simp [assocGet, List.find?_cons, hne] at this ⊢
      exact this

theorem assocPut_of_absent {α β : Type} [DecidableEq α] {l : List (α × β)} {k : α}
    (h : assocGet l k = none) (v : β) : assocPut l k v = l ++ [(k, v)] := by
  unfold assocPut
  have hany : l.any (fun e => decide (e.1 = k)) = false := by
    rw [List.any_eq_false]
    intro e he
    simp only [Bool.not_eq_true, decide_eq_false_iff_not]
    intro hc
    exact assocGet_eq_none h e.2 (by cases e; cases hc; exact he)
  rw [hany]
  simp

theorem assocGet_append_left {α β : Type} [DecidableEq α] {l1 l2 : List (α × β)} {k : α}
    {v : β} (h : assocGet l1 k = some v) : assocGet (l1 ++ l2) k = some v := by
  unfold assocGet at *
  rw [List.find?_append]
  cases hf : l1.find? (fun e => decide (e.1 = k)) with
  | none => rw [hf] at h; cases h
  | some e => rw [hf] at h; simp [Option.orElse, h, hf]

theorem assocGet_append_right {α β : Type} [DecidableEq α] {l1 l2 : List (α × β)} {k : α}
    (h : assocGet l1 k = none) : assocGet (l1 ++ l2) k = assocGet l2 k := by
  unfold assocGet at *
  rw [List.find?_append]
  cases hf : l1.find? (fun e => decide (e.1 = k)) with
  | none => simp [Option.orElse]
  | some e => rw [hf] at h; cases h

theorem assocGet_singleton_self {α β : Type} [DecidableEq α] (k : α) (v : β) :
    assocGet [(k, v)] k = some v := by simp [assocGet, List.find?]

theorem assocGet_singleton_ne {α β : Type} [DecidableEq α] {k k' : α} (v : β)
    (h : k' ≠ k) : assocGet [(k, v)] k' = none := by
  have hd : decide (k = k') = false := decide_eq_false (fun hc => h hc.symm)
  simp [assocGet, List.find?, hd]

theorem assocGet_cons_ne {α β : Type} [DecidableEq α] {l : List (α × β)} {e : α × β}
    {k : α} (h : e.1 ≠ k) : assocGet (e :: l) k = assocGet l k := by
  simp [assocGet, List.find?_cons, h]

/-! ## Factor dictionary invariant

The per-property invariant linking the sequence counter, the forward and
reverse mappings and the LRU cache.  It is stated for histories in which
every factorized string fits the 500-byte key limit (`truncateFactor` is
then the identity); longer strings are covered separately (C7). -/

/-- Current value of the sequence counter `"+"` (absent reads as 0). -/
def seqOf (t : Table) (pid : Int) : Int :=
  match (t.factors pid).seq with
  | none => 0
  | some u => u

structure FInv (pid : Int) (t : Table) : Prop where
  seq_nonneg : 0 ≤ seqOf t pid
  fwd_ok : ∀ s i, (s, i) ∈ (t.factors pid).fwd →
    1 ≤ i ∧ i ≤ seqOf t pid ∧ assocGet (t.factors pid).rev i = some s ∧
    s.length ≤ 500 ∧ s ≠ []
  fwd_nodup : ((t.factors pid).fwd.map (·.1)).Nodup
  fwd_inj : ∀ s i s' i', (s, i) ∈ (t.factors pid).fwd →
    (s', i') ∈ (t.factors pid).fwd → i = i' → s = s'
  rev_ok : ∀ i s, (i, s) ∈ (t.factors pid).rev →
    assocGet (t.factors pid).fwd s = some i
  rev_nodup : ((t.factors pid).rev.map (·.1)).Nodup
  cache_ok : ∀ s i, (s, i) ∈ (t.caches pid).entries →
    assocGet (t.factors pid).fwd s = some i ∧ s.length ≤ 500

/-- Reachable factor states for one property: a fresh open table, then any
interleaving of `factorize` calls on byte strings within the key limit,
`defactorize` calls, and outside steps that leave this property's factor
DBI and cache alone. -/
inductive FactReach (pid : Int) : Table → Prop where
  | init : ∀ t : Table, t.isOpen = true → t.factors pid = emptyFactorDB →
      t.caches pid = ⟨[]⟩ → FactReach pid t
  | fact : ∀ (t : Table) (v : Bytes) (create : Bool), FactReach pid t →
      v.length ≤ 500 → FactReach pid (t.factorize pid v create).2
  | defact : ∀ (t : Table) (i : Int), FactReach pid t →
      FactReach pid (t.defactorize pid i).2
  | frame : ∀ t t' : Table, FactReach pid t → t'.factors pid = t.factors pid →
      t'.caches pid = t.caches pid → t'.isOpen = true → FactReach pid t'

theorem truncateFactor_of_le {v : Bytes} (h : v.length ≤ 500) :
    truncateFactor v = v := by
  unfold truncateFactor maxKeySize
  simp [show ¬ v.length > 500 by omega]

/-! ### Cache and update helper lemmas -/

theorem updf_self {α : Type} (f : Int → α) (k : Int) : updf f k (f k) = f := by
  funext j
  unfold updf
  split
  · subst ‹j = k›; rfl
  · rfl

theorem updf_at {α : Type} (f : Int → α) (k : Int) (v : α) : updf f k v k = v := by
  simp [updf]

theorem updf_ne {α : Type} (f : Int → α) (k : Int) (v : α) {j : Int} (h : j ≠ k) :
    updf f k v j = f j := by
  simp [updf, h]

theorem getValue_entries_subset (c : FactorCache) (s : Bytes) :
    ∀ x ∈ ((c.getValue s).2).entries, x ∈ c.entries := by
  intro x hx
  unfold FactorCache.getValue at hx
  cases hf : c.entries.find? (fun e => decide (e.1 = s)) with
  | none => rw [hf] at hx; exact hx
  | some e =>
    rw [hf] at hx
    rcases List.mem_cons.1 hx with h1 | h1
    · rw [h1]; exact List.mem_of_find?_eq_some hf
    · exact List.mem_of_mem_filter h1

theorem getValue_hit {c : FactorCache} {s : Bytes} {i : Int}
    (h : (c.getValue s).1 = some i) : (s, i) ∈ c.entries := by
  unfold FactorCache.getValue at h
  cases hf : c.entries.find? (fun e => decide (e.1 = s)) with
  | none => rw [hf] at h; cases h
  | some e =>
    rw [hf] at h
    have hm := List.mem_of_find?_eq_some hf
    have hp := List.find?_some hf
    simp only [decide_eq_true_eq] at hp
    cases h
    cases e
    cases hp
    exact hm

theorem getValue_miss {c : FactorCache} {s : Bytes} (h : ∀ i, (s, i) ∉ c.entries) :
    c.getValue s = (none, c) := by
  unfold FactorCache.getValue
  have hf : c.entries.find? (fun e => decide (e.1 = s)) = none := by
    rw [List.find?_eq_none]
    intro e he
    simp only [Bool.not_eq_true, decide_eq_false_iff_not]
    intro hc
    exact h e.2 (by cases e; cases hc; exact he)
  rw [hf]

theorem getKey_entries_subset (c : FactorCache) (i : Int) :
    ∀ x ∈ ((c.getKey i).2).entries, x ∈ c.entries := by
  intro x hx
  unfold FactorCache.getKey at hx
  cases hf : c.entries.find? (fun e => decide (e.2 = i)) with
  | none => rw [hf] at hx; exact hx
  | some e =>
    rw [hf] at hx
    rcases List.mem_cons.1 hx with h1 | h1
    · rw [h1]; exact List.mem_of_find?_eq_some hf
    · exact List.mem_of_mem_filter h1

theorem getKey_hit {c : FactorCache} {i : Int} {s : Bytes}
    (h : (c.getKey i).1 = some s) : (s, i) ∈ c.entries := by
  unfold FactorCache.getKey at h
  cases hf : c.entries.find? (fun e => decide (e.2 = i)) with
  | none => rw [hf] at h; cases h
  | some e =>
    rw [hf] at h
    have hm := List.mem_of_find?_eq_some hf
    have hp := List.find?_some hf
    simp only [decide_eq_true_eq] at hp
    cases h
    cases e
    cases hp
    exact hm

theorem add_entries_subset (c : FactorCache) (s : Bytes) (i : Int) :
    ∀ x ∈ (c.add s i).entries, x = (s, i) ∨ x ∈ c.entries := by
  intro x hx
  unfold FactorCache.add at hx
  have hx' := List.mem_of_mem_take hx
  rcases List.mem_cons.1 hx' with h1 | h1
  · exact Or.inl h1
  · exact Or.inr (List.mem_of_mem_filter h1)

/-- `factorize` rewrites at most the addressed property's cache and factor
DBI; every other table field is untouched. -/
theorem factorize_shape (t : Table) (pid : Int) (v : Bytes) (create : Bool) :
    ∃ (c : FactorCache) (f : FactorDB),
      (t.factorize pid v create).2 =
        { t with caches := updf t.caches pid c, factors := updf t.factors pid f } := by
  unfold Table.factorize
  split
  · exact ⟨t.caches pid, t.factors pid, by rw [updf_self, updf_self]⟩
  split
  · rename_i sequence c1 heq
    refine ⟨c1, t.factors pid, ?_⟩
    rw [updf_self]
  split
  · exact ⟨t.caches pid, t.factors pid, by rw [updf_self, updf_self]⟩
  split
  · rename_i val heq
    dsimp only
    split
    · refine ⟨(t.caches pid).add v val, t.factors pid, ?_⟩
      rw [updf_self]
    split
    · exact ⟨_, _, rfl⟩
    · exact ⟨t.caches pid, t.factors pid, by rw [updf_self, updf_self]⟩
  · dsimp only
    split
    · rename_i hne
      exact absurd rfl hne
    split
    · exact ⟨_, _, rfl⟩
    · exact ⟨t.caches pid, t.factors pid, by rw [updf_self, updf_self]⟩

/-- `defactorize` rewrites at most the addressed property's cache. -/
theorem defactorize_shape (t : Table) (pid : Int) (i : Int) :
    ∃ c : FactorCache,
      (t.defactorize pid i).2 = { t with caches := updf t.caches pid c } := by
  unfold Table.defactorize
  split
  · exact ⟨t.caches pid, by rw [updf_self]⟩
  · split
    · rename_i key c1 heq
      exact ⟨c1, rfl⟩
    · split
      · exact ⟨t.caches pid, by rw [updf_self]⟩
      · split
        · exact ⟨t.caches pid, by rw [updf_self]⟩
        · exact ⟨_, rfl⟩

/-- `FInv` only looks at the property's factor DBI and cache. -/
theorem FInv.transport {pid : Int} {t t' : Table} (h : FInv pid t)
    (hf : t'.factors pid = t.factors pid) (hc : t'.caches pid = t.caches pid) :
    FInv pid t' := by
  have hs : seqOf t' pid = seqOf t pid := by unfold seqOf; rw [hf]
  exact ⟨hs ▸ h.seq_nonneg,
    by rw [hf, hs]; exact h.fwd_ok,
    by rw [hf]; exact h.fwd_nodup,
    by rw [hf]; exact h.fwd_inj,
    by rw [hf]; exact h.rev_ok,
    by rw [hf]; exact h.rev_nodup,
    by rw [hf, hc]; exact h.cache_ok⟩

/-! ### FInv preservation and result characterization -/

/-- The in-memory effect of a successful `addFactor` on a fresh value
preserves the factor invariant. -/
theorem FInv_extend {pid : Int} {t t' : Table} (hinv : FInv pid t) {v : Bytes}
    (hlen : v.length <= 500) (hv : v ≠ [])
    (heq : assocGet (t.factors pid).fwd v = none)
    (hfac : t'.factors pid =
      ⟨some (seqOf t pid + 1),
       assocPut (t.factors pid).fwd v (seqOf t pid + 1),
       assocPut (t.factors pid).rev (seqOf t pid + 1) v⟩)
    (hcac : t'.caches pid = (t.caches pid).add v (seqOf t pid + 1)) :
    FInv pid t' := by
  have hfresh : ∀ i s, (i, s) ∈ (t.factors pid).rev → i ≠ seqOf t pid + 1 := by
    intro i s hm hc
    have h1 := hinv.rev_ok i s hm
    have h2 := hinv.fwd_ok s i (assocGet_mem h1)
    omega
  have hrevnone : assocGet (t.factors pid).rev (seqOf t pid + 1) = none := by
    cases hr : assocGet (t.factors pid).rev (seqOf t pid + 1) with
    | none => rfl
    | some s => exact absurd rfl (hfresh _ s (assocGet_mem hr))
  have hput : assocPut (t.factors pid).fwd v (seqOf t pid + 1) =
      (t.factors pid).fwd ++ [(v, seqOf t pid + 1)] := assocPut_of_absent heq _
  have hputr : assocPut (t.factors pid).rev (seqOf t pid + 1) v =
      (t.factors pid).rev ++ [(seqOf t pid + 1, v)] := assocPut_of_absent hrevnone _
  have hS := hinv.seq_nonneg
  have hseq2 : seqOf t' pid = seqOf t pid + 1 := by
    unfold seqOf
    rw [hfac]
    rfl
  refine ⟨?_, ?_, ?_, ?_, ?_, ?_, ?_⟩
  · rw [hseq2]
    omega
  · intro s i hm
    rw [hfac] at hm
    simp only at hm
    rw [hput] at hm
    rw [hseq2, hfac]
    simp only
    rw [hputr]
    rcases List.mem_append.1 hm with h1 | h1
    · obtain ⟨ha, hb, hc, hd, he⟩ := hinv.fwd_ok s i h1
      refine ⟨ha, by omega, ?_, hd, he⟩
      exact assocGet_append_left hc
    · rcases List.mem_singleton.1 h1 with h2
      cases h2
      refine ⟨by omega, by omega, ?_, hlen, hv⟩
      rw [assocGet_append_right hrevnone]
      exact assocGet_singleton_self _ _
  · rw [hfac]
    simp only
    rw [hput, List.map_append, List.nodup_append]
    refine ⟨hinv.fwd_nodup, List.nodup_singleton _, ?_⟩
    intro x hx hx'
    simp only [List.map_cons, List.map_nil, List.mem_singleton] at hx'
    subst hx'
    obtain ⟨e, he, hee⟩ := List.mem_map.1 hx
    exact assocGet_eq_none heq e.2 (by cases e; cases hee; exact he)
  · intro s i s' i' hm hm' hii
    rw [hfac] at hm hm'
    simp only at hm hm'
    rw [hput] at hm hm'
    rcases List.mem_append.1 hm with h1 | h1 <;>
      rcases List.mem_append.1 hm' with h2 | h2
    · exact hinv.fwd_inj s i s' i' h1 h2 hii
    · rcases List.mem_singleton.1 h2 with h3
      cases h3
      obtain ⟨_, hb, _, _, _⟩ := hinv.fwd_ok s i h1
      omega
    · rcases List.mem_singleton.1 h1 with h3
      cases h3
      obtain ⟨_, hb, _, _, _⟩ := hinv.fwd_ok s' i' h2
      omega
    · rcases List.mem_singleton.1 h1 with h3
      rcases List.mem_singleton.1 h2 with h4
      cases h3; cases h4; rfl
  · intro i s hm
    rw [hfac] at hm ⊢
    simp only at hm ⊢
    rw [hputr] at hm
    rw [hput]
    rcases List.mem_append.1 hm with h1 | h1
    · exact assocGet_append_left (hinv.rev_ok i s h1)
    · rcases List.mem_singleton.1 h1 with h2
      cases h2
      rw [assocGet_append_right heq]
      exact assocGet_singleton_self _ _
  · rw [hfac]
    simp only
    rw [hputr, List.map_append, List.nodup_append]
    refine ⟨hinv.rev_nodup, List.nodup_singleton _, ?_⟩
    intro x hx hx'
    simp only [List.map_cons, List.map_nil, List.mem_singleton] at hx'
    subst hx'
    obtain ⟨e, he, hee⟩ := List.mem_map.1 hx
    exact hfresh e.1 e.2 (by cases e; exact he) (by cases e; cases hee; rfl)
  · intro s i hm
    rw [hcac] at hm
    rw [hfac]
    simp only
    rw [hput]
    rcases add_entries_subset _ _ _ (s, i) hm with h1 | h1
    · cases h1
      refine ⟨?_, hlen⟩
      rw [assocGet_append_right heq]
      exact assocGet_singleton_self _ _
    · obtain ⟨ha, hb⟩ := hinv.cache_ok s i h1
      exact ⟨assocGet_append_left ha, hb⟩

theorem factorize_FInv {pid : Int} {t : Table} {v : Bytes} {create : Bool}
    (hinv : FInv pid t) (hlen : v.length ≤ 500) :
    FInv pid (t.factorize pid v create).2 := by
  unfold Table.factorize
  split
  · exact hinv
  split
  · rename_i sequence c1 heq
    refine { hinv with cache_ok := ?_ }
    intro s i hsi
    apply hinv.cache_ok
    have : c1 = ((t.caches pid).getValue v).2 := by rw [heq]
    rw [this] at hsi
    simpa [updf_at] using getValue_entries_subset (t.caches pid) v (s, i) (by simpa [updf_at] using hsi)
  split
  · exact hinv
  split
  · rename_i val heq
    dsimp only
    split
    · -- forward fetch hit: add the original (≤500-byte) value to the cache
      rename_i hval
      refine { hinv with cache_ok := ?_ }
      intro s i hsi
      simp only [updf_at] at hsi
      rcases add_entries_subset (t.caches pid) v val (s, i) hsi with h1 | h1
      · cases h1
        rw [truncateFactor_of_le hlen] at heq
        exact ⟨by simpa using heq, hlen⟩
      · exact hinv.cache_ok s i h1
    split
    · -- val = 0 from a forward hit is impossible: stored ids are ≥ 1
      rename_i hval hcreate
      exfalso
      rw [truncateFactor_of_le hlen] at heq
      have h1 := hinv.fwd_ok v val (assocGet_mem heq)
      simp only [ne_eq, Decidable.not_not] at hval
      omega
    · exact hinv
  · -- full miss
    rename_i heq
    rw [truncateFactor_of_le hlen] at heq
    dsimp only
    split
    · rename_i hne; exact absurd rfl hne
    split
    · -- addFactor
      rename_i hcreate
      have hv : v ≠ [] := by assumption
      refine FInv_extend hinv hlen hv heq ?_ ?_
      · show updf t.factors pid _ pid = _
        rw [updf_at, truncateFactor_of_le hlen]
        rfl
      · show updf t.caches pid _ pid = _
        rw [updf_at, truncateFactor_of_le hlen]
        rfl
    · exact hinv

theorem defactorize_FInv {pid : Int} {t : Table} {i : Int} (hinv : FInv pid t) :
    FInv pid (t.defactorize pid i).2 := by
  unfold Table.defactorize
  split
  · exact hinv
  split
  · rename_i key c1 heq
    refine { hinv with cache_ok := ?_ }
    intro s j hsj
    apply hinv.cache_ok
    have : c1 = ((t.caches pid).getKey i).2 := by rw [heq]
    rw [this] at hsj
    simpa [updf_at] using getKey_entries_subset (t.caches pid) i (s, j) (by simpa [updf_at] using hsj)
  split
  · exact hinv
  split
  · exact hinv
  · rename_i data heq
    refine { hinv with cache_ok := ?_ }
    intro s j hsj
    simp only [updf_at] at hsj
    rcases add_entries_subset (t.caches pid) data i (s, j) hsj with h1 | h1
    · cases h1
      have h2 := hinv.rev_ok i data (assocGet_mem heq)
      obtain ⟨_, _, _, hd, _⟩ := hinv.fwd_ok data i (assocGet_mem h2)
      exact ⟨h2, hd⟩
    · exact hinv.cache_ok s j h1

/-- On a forward hit (the value already has a factor), `factorize` returns
the stored id and leaves the factor DBI unchanged. -/
theorem factorize_hit {pid : Int} {t : Table} {v : Bytes} {create : Bool} {j : Int}
    (hinv : FInv pid t) (hopen : t.isOpen = true) (hlen : v.length ≤ 500)
    (hv : v ≠ []) (hfwd : assocGet (t.factors pid).fwd v = some j) :
    (t.factorize pid v create).1 = .ok j ∧
    (t.factorize pid v create).2.factors pid = t.factors pid := by
  have hj := hinv.fwd_ok v j (assocGet_mem hfwd)
  unfold Table.factorize
  rw [if_neg hv]
  rcases hgv : (t.caches pid).getValue v with ⟨o, c1⟩
  cases o with
  | some sequence =>
    -- LRU hit: the cache is consistent with the forward map
    have hmem := getValue_hit (show ((t.caches pid).getValue v).1 = some sequence by
      rw [hgv])
    have h1 := (hinv.cache_ok v sequence hmem).1
    rw [hfwd] at h1
    cases h1
    exact ⟨rfl, rfl⟩
  | none =>
    dsimp only
    rw [hopen, if_neg (show ¬ ¬ (true = true) by simp)]
    rw [truncateFactor_of_le hlen, hfwd]
    dsimp only
    rw [if_pos (show j ≠ 0 by omega)]
    exact ⟨rfl, rfl⟩

/-- On a full miss with `createIfNotExists = true`, `factorize` assigns the
next sequence id, extends the mappings, and leaves earlier factors in
place. -/
theorem factorize_fresh {pid : Int} {t : Table} {v : Bytes}
    (hinv : FInv pid t) (hopen : t.isOpen = true) (hlen : v.length ≤ 500)
    (hv : v ≠ []) (hfwd : assocGet (t.factors pid).fwd v = none) :
    (t.factorize pid v true).1 = .ok (seqOf t pid + 1) ∧
    seqOf (t.factorize pid v true).2 pid = seqOf t pid + 1 ∧
    assocGet ((t.factorize pid v true).2.factors pid).fwd v =
      some (seqOf t pid + 1) ∧
    (∀ s j, assocGet (t.factors pid).fwd s = some j →
      assocGet ((t.factorize pid v true).2.factors pid).fwd s = some j) ∧
    (∀ i s, assocGet (t.factors pid).rev i = some s →
      assocGet ((t.factorize pid v true).2.factors pid).rev i = some s) := by
  have hfresh : ∀ i s, (i, s) ∈ (t.factors pid).rev → i ≠ seqOf t pid + 1 := by
    intro i s hm hc
    have h1 := hinv.rev_ok i s hm
    have h2 := hinv.fwd_ok s i (assocGet_mem h1)
    omega
  have hrevnone : assocGet (t.factors pid).rev (seqOf t pid + 1) = none := by
    cases hr : assocGet (t.factors pid).rev (seqOf t pid + 1) with
    | none => rfl
    | some s => exact absurd rfl (hfresh _ s (assocGet_mem hr))
  have hput : assocPut (t.factors pid).fwd v (seqOf t pid + 1) =
      (t.factors pid).fwd ++ [(v, seqOf t pid + 1)] := assocPut_of_absent hfwd _
  have hputr : assocPut (t.factors pid).rev (seqOf t pid + 1) v =
      (t.factors pid).rev ++ [(seqOf t pid + 1, v)] := assocPut_of_absent hrevnone _
  have hcmiss : (t.caches pid).getValue v = (none, t.caches pid) := by
    apply getValue_miss
    intro i hi
    have := (hinv.cache_ok v i hi).1
    rw [hfwd] at this
    cases this
  unfold Table.factorize
  rw [if_neg hv, hcmiss]
  simp only [hopen, not_true, if_neg, ite_false]
  rw [truncateFactor_of_le hlen, hfwd]
  dsimp only
  rw [if_neg (by omega : ¬ (0 : Int) ≠ 0), if_pos trivial]
  have hseq : (match (t.factors pid).seq with | none => 0 | some u => u) = seqOf t pid :=
    rfl
  refine ⟨rfl, ?_, ?_, ?_, ?_⟩
  · unfold seqOf
    dsimp only
    rw [updf_at]
  · dsimp only
    rw [updf_at]
    dsimp only
    rw [hseq, hput, assocGet_append_right hfwd]
    exact assocGet_singleton_self _ _
  · intro s j hj
    dsimp only
    rw [updf_at]
    dsimp only
    rw [hseq, hput]
    exact assocGet_append_left hj
  · intro i s hs
    dsimp only
    rw [updf_at]
    dsimp only
    rw [hseq, hputr]
    exact assocGet_append_left hs

/-- Under the invariant, `defactorize` inverts any id present in the
forward map. -/
theorem defactorize_of_fwd {pid : Int} {t : Table} {v : Bytes} {i : Int}
    (hinv : FInv pid t) (hopen : t.isOpen = true)
    (hfwd : assocGet (t.factors pid).fwd v = some i) :
    (t.defactorize pid i).1 = .ok v := by
  have hi := hinv.fwd_ok v i (assocGet_mem hfwd)
  unfold Table.defactorize
  rw [if_neg (by omega : ¬ i = 0)]
  split
  · rename_i key c1 heq
    have hmem := getKey_hit (by rw [heq])
    have h1 := (hinv.cache_ok key i hmem).1
    have := hinv.fwd_inj key i v i (assocGet_mem h1) (assocGet_mem hfwd) rfl
    rw [this]
  · split
    · rename_i hno
      rw [hopen] at hno
      simp at hno
    · split
      · rename_i hre
        rw [hi.2.2.1] at hre
        cases hre
      · rename_i data hre
        rw [hi.2.2.1] at hre
        cases hre
        rfl

/-- Every reachable factor state is open and satisfies the invariant. -/
theorem factReach_inv {pid : Int} {t : Table} (h : FactReach pid t) :
    FInv pid t ∧ t.isOpen = true := by
  induction h with
  | init t hopen hdb hch =>
    refine ⟨⟨?_, ?_, ?_, ?_, ?_, ?_, ?_⟩, hopen⟩
    · unfold seqOf; rw [hdb]; exact le_refl 0
    · intro s i hm; rw [hdb] at hm; cases hm
    · rw [hdb]; exact List.nodup_nil
    · intro s i s' i' hm; rw [hdb] at hm; cases hm
    · intro i s hm; rw [hdb] at hm; cases hm
    · rw [hdb]; exact List.nodup_nil
    · intro s i hm; rw [hch] at hm; cases hm
  | fact t v create _ hlen ih =>
    obtain ⟨hinv, hopen⟩ := ih
    obtain ⟨c, f, hsh⟩ := factorize_shape t pid v create
    exact ⟨factorize_FInv hinv hlen, by rw [hsh]; exact hopen⟩
  | defact t i _ ih =>
    obtain ⟨hinv, hopen⟩ := ih
    obtain ⟨c, hsh⟩ := defactorize_shape t pid i
    exact ⟨defactorize_FInv hinv, by rw [hsh]; exact hopen⟩
  | frame t t' _ hf hc hopen ih =>
    exact ⟨ih.1.transport hf hc, hopen⟩

theorem FInv.get_inj {pid : Int} {t : Table} (h : FInv pid t) {s s' : Bytes} {i : Int}
    (h1 : assocGet (t.factors pid).fwd s = some i)
    (h2 : assocGet (t.factors pid).fwd s' = some i) : s = s' :=
  h.fwd_inj s i s' i (assocGet_mem h1) (assocGet_mem h2) rfl

theorem factorize_isOpen (t : Table) (pid : Int) (v : Bytes) (create : Bool) :
    (t.factorize pid v create).2.isOpen = t.isOpen := by
  obtain ⟨a, b, h⟩ := factorize_shape t pid v create
  rw [h]

/-! ### Shard update and frame lemmas -/

theorem getD_set_self {α : Type} : ∀ (l : List α) (i : Nat) (x d : α), i < l.length →
    (l.set i x).getD i d = x
  | [], _, _, _, h => absurd h (by simp)
  | _ :: _, 0, _, _, _ => rfl
  | _ :: rest, n + 1, x, d, h => getD_set_self rest n x d (by simpa using h)

theorem getD_set_ne {α : Type} : ∀ (l : List α) (i j : Nat) (x d : α), i ≠ j →
    (l.set i x).getD j d = l.getD j d
  | [], _, _, _, _, _ => rfl
  | _ :: _, 0, 0, _, _, h => absurd rfl h
  | _ :: _, 0, _ + 1, _, _, _ => rfl
  | _ :: _, _ + 1, 0, _, _, _ => rfl
  | _ :: rest, n + 1, m + 1, x, d, h =>
    getD_set_ne rest n m x d (fun hc => h (by rw [hc]))

theorem assocGet_assocPut_self {α β : Type} [DecidableEq α] (l : List (α × β)) (k : α)
    (v : β) : assocGet (assocPut l k v) k = some v := by
  induction l with
  | nil => simp [assocPut, assocGet, List.find?]
  | cons e rest ih =>
    unfold assocPut
    by_cases he : e.1 = k
    · rw [if_pos (by simp [List.any_cons, he]), List.map_cons, if_pos he]
      simp [assocGet, List.find?_cons]
    · by_cases hr : rest.any (fun e => decide (e.1 = k)) = true
      · rw [if_pos (by simp [List.any_cons, hr]), List.map_cons, if_neg he,
          assocGet_cons_ne he]
        have h2 := ih
        unfold assocPut at h2
        rw [if_pos hr] at h2
        exact h2
      · rw [if_neg (show ¬ ((e :: rest).any (fun e => decide (e.1 = k)) = true) from by
          simp only [List.any_cons, Bool.or_eq_true, decide_eq_true_eq]
          rintro (hc | hc)
          · exact he hc
          · exact hr hc), List.cons_append, assocGet_cons_ne he]
        have h2 := ih
        unfold assocPut at h2
        rw [if_neg hr] at h2
        exact h2

theorem assocGet_assocPut_ne {α β : Type} [DecidableEq α] (l : List (α × β)) (k k' : α)
    (v : β) (h : k' ≠ k) : assocGet (assocPut l k v) k' = assocGet l k' := by
  unfold assocPut
  by_cases hany : l.any (fun e => decide (e.1 = k)) = true
  · rw [if_pos hany]
    clear hany
    induction l with
    | nil => rfl
    | cons e rest ih =>
      rw [List.map_cons]
      by_cases he : e.1 = k
      · rw [if_pos he,
          assocGet_cons_ne (show ((k, v) : α × β).1 ≠ k' from fun hc => h hc.symm),
          assocGet_cons_ne (show e.1 ≠ k' from he ▸ fun hc => h hc.symm)]
        exact ih
      · rw [if_neg he]
        by_cases hek : e.1 = k'
        · simp [assocGet, List.find?_cons, hek]
        · rw [assocGet_cons_ne hek, assocGet_cons_ne hek]
          exact ih
  · rw [if_neg hany]
    cases hl : assocGet l k' with
    | some w => rw [assocGet_append_left hl]
    | none => rw [assocGet_append_right hl, assocGet_singleton_ne v h]

theorem dups_setDups_self (t : Table) (i : Nat) (key : Bytes) (d : List Bytes)
    (hi : i < t.shards.length) : (t.setDups i key d).dups i key = d := by
  unfold Table.dups Table.setDups
  dsimp only
  rw [getD_set_self t.shards i (assocPut (t.shards.getD i []) key d) [] hi,
    assocGet_assocPut_self]
  rfl

theorem dups_setDups_ne (t : Table) (i : Nat) (key : Bytes) (d : List Bytes)
    (j : Nat) (key' : Bytes) (h : key' ≠ key) (hi : i < t.shards.length) :
    (t.setDups i key d).dups j key' = t.dups j key' := by
  unfold Table.dups Table.setDups
  dsimp only
  by_cases hj : i = j
  · subst hj
    rw [getD_set_self t.shards i (assocPut (t.shards.getD i []) key d) [] hi,
      assocGet_assocPut_ne _ _ _ _ h]
  · rw [getD_set_ne t.shards i j (assocPut (t.shards.getD i []) key d) [] hj]

theorem WFraws_filter {raws : List RawEvent} (h : WFraws raws) (p : RawEvent → Bool) :
    WFraws (raws.filter p) := by
  obtain ⟨hok, hsort⟩ := h
  constructor
  · intro r hr
    exact hok r (List.mem_of_mem_filter hr)
  · exact List.Pairwise.sublist (List.filter_sublist raws) hsort

theorem find?_filter_of_none {α : Type} (p q : α → Bool)
    (h : ∀ a, p a = false → q a = false) :
    ∀ l : List α, (l.filter p).find? q = l.find? q := by
  intro l
  induction l with
  | nil => rfl
  | cons a rest ih =>
    cases hp : p a with
    | false =>
      have hq := h a hp
      simp [List.filter_cons, hp, List.find?_cons, hq, ih]
    | true =>
      simp [List.filter_cons, hp, List.find?_cons, ih]

theorem find?_filter_self {α : Type} (q : α → Bool) (l : List α) :
    (l.filter (fun a => ! q a)).find? q = none := by
  rw [List.find?_eq_none]
  intro a ha
  have hm := List.of_mem_filter ha
  simp at hm ⊢
  exact hm

/-- `DeleteEvent` on an open table with a non-empty id: success and the
`delAt` update of the addressed duplicate list. -/
theorem DeleteEvent_open (t : Table) {id : Bytes} (hopen : t.isOpen = true)
    (hid : id ≠ []) (us : Int) :
    t.DeleteEvent id us = (.ok (),
      t.setDups (t.shardIndex id) id
        (txnDelAt (t.dups (t.shardIndex id) id) (tsBytes (shiftTime us)))) := by
  unfold Table.DeleteEvent
  rw [hopen, if_neg (show ¬ ¬ (true = true) by simp), if_neg hid]

/-- `defactorize` neither reads nor writes the shards: it commutes with any
replacement of the `shards` field. -/
theorem defactorize_shards (t : Table) (s : List (List (Bytes × List Bytes)))
    (pid i : Int) :
    Table.defactorize { t with shards := s } pid i =
      ((t.defactorize pid i).1, { (t.defactorize pid i).2 with shards := s }) := by
  unfold Table.defactorize
  dsimp only
  by_cases h0 : i = 0
  · rw [if_pos h0, if_pos h0]
  · rw [if_neg h0, if_neg h0]
    rcases hk : (t.caches pid).getKey i with ⟨o, c1⟩
    cases o with
    | some key => rfl
    | none =>
      dsimp only
      by_cases ho : t.isOpen = true
      · rw [if_neg (fun hc => hc ho), if_neg (fun hc => hc ho)]
        cases hr : assocGet (t.factors pid).rev i with
        | none => rfl
        | some data => rfl
      · rw [if_pos ho, if_pos ho]

/-- The `toEvent` conversion loop commutes with any replacement of the
`shards` field. -/
theorem toEvLoop_shards (s : List (List (Bytes × List Bytes))) :
    ∀ (t : Table) (d : List (Int × Value)) (acc : List (Bytes × Value)),
      Table.toEvLoop { t with shards := s } d acc =
        ((Table.toEvLoop t d acc).1, { (Table.toEvLoop t d acc).2 with shards := s })
  | t, [], acc => rfl
  | t, (k, v) :: rest, acc => by
    unfold Table.toEvLoop
    dsimp only
    cases hp : assocGet t.propertiesByID k with
    | none =>
      exact toEvLoop_shards s t rest acc
    | some p =>
      dsimp only
      by_cases hft : p.DataType = DataType.Factor
      · rw [if_pos hft, if_pos hft]
        cases v with
        | vint iv =>
          dsimp only [promote]
          rw [defactorize_shards]
          rcases hd : t.defactorize p.ID iv with ⟨r, t2⟩
          dsimp only
          cases r with
          | ok sres => exact toEvLoop_shards s t2 rest (mapPut lexLt p.Name (.vstr sres) acc)
          | error er => rfl
        | vstr sv => rfl
        | vfloat f => rfl
        | vbool b => rfl
      · rw [if_neg hft, if_neg hft]
        exact toEvLoop_shards s t rest (mapPut lexLt p.Name (promote v) acc)

theorem toEvent_shards (t : Table) (s : List (List (Bytes × List Bytes)))
    (r : RawEvent) :
    Table.toEvent { t with shards := s } r =
      ((t.toEvent r).1, { (t.toEvent r).2 with shards := s }) := by
  unfold Table.toEvent
  rw [toEvLoop_shards]
  rcases hl : Table.toEvLoop t r.data [] with ⟨res, t2⟩
  dsimp only
  cases res with
  | ok d => rfl
  | error er => rfl

/-- `GetEvent` congruence: if a shards replacement leaves the addressed raw
read unchanged, the returned event is unchanged. -/
theorem GetEvent_shards (t : Table) (s : List (List (Bytes × List Bytes)))
    (id : Bytes) (us : Int)
    (hraw : Table.getRawEvent { t with shards := s } id (shiftTime us) =
      t.getRawEvent id (shiftTime us)) :
    (Table.GetEvent { t with shards := s } id us).1 = (t.GetEvent id us).1 := by
  unfold Table.GetEvent
  dsimp only
  rw [hraw]
  by_cases ho : t.isOpen = true
  · rw [if_neg (fun hc => hc ho), if_neg (fun hc => hc ho)]
    cases hg : t.getRawEvent id (shiftTime us) with
    | error er => rfl
    | ok o =>
      cases o with
      | none => rfl
      | some r =>
        dsimp only
        rw [toEvent_shards]
        rcases ht : t.toEvent r with ⟨res, t2⟩
        dsimp only
        cases res with
        | ok ev => rfl
        | error er => rfl
  · rw [if_pos ho, if_pos ho]

/-! ### Merge lemmas (`insertEvent`) -/

theorem mem_mapPut {α β : Type} [DecidableEq α] (lt : α → α → Bool) (k : α) (v : β) :
    ∀ (l : List (α × β)) (x : α × β), x ∈ mapPut lt k v l → x = (k, v) ∨ x ∈ l
  | [], x, hx => by
    rcases List.mem_cons.1 hx with h | h
    · exact Or.inl h
    · cases h
  | (k', v') :: rest, x, hx => by
    unfold mapPut at hx
    by_cases h1 : lt k k' = true
    · rw [if_pos h1] at hx
      rcases List.mem_cons.1 hx with h | h
      · exact Or.inl h
      · exact Or.inr h
    · rw [if_neg h1] at hx
      by_cases h2 : k = k'
      · rw [if_pos h2] at hx
        rcases List.mem_cons.1 hx with h | h
        · exact Or.inl h
        · exact Or.inr (List.mem_cons_of_mem _ h)
      · rw [if_neg h2] at hx
        rcases List.mem_cons.1 hx with h | h
        · exact Or.inr (h ▸ List.mem_cons_self _ _)
        · rcases mem_mapPut lt k v rest x h with h3 | h3
          · exact Or.inl h3
          · exact Or.inr (List.mem_cons_of_mem _ h3)

theorem assocGet_mapPut_self {α β : Type} [DecidableEq α] (lt : α → α → Bool)
    (k : α) (v : β) : ∀ l : List (α × β), assocGet (mapPut lt k v l) k = some v
  | [] => by simp [mapPut, assocGet, List.find?]
  | (k', v') :: rest => by
    unfold mapPut
    by_cases h1 : lt k k' = true
    · rw [if_pos h1]
      simp [assocGet, List.find?_cons]
    · rw [if_neg h1]
      by_cases h2 : k = k'
      · rw [if_pos h2]
        simp [assocGet, List.find?_cons]
      · rw [if_neg h2,
          assocGet_cons_ne (show (k', v').1 ≠ k from fun hc => h2 hc.symm)]
        exact assocGet_mapPut_self lt k v rest

theorem assocGet_mapPut_ne {α β : Type} [DecidableEq α] (lt : α → α → Bool)
    (k k2 : α) (v : β) (hne : k2 ≠ k) :
    ∀ l : List (α × β), assocGet (mapPut lt k v l) k2 = assocGet l k2
  | [] => by
    rw [show mapPut lt k v [] = [(k, v)] from rfl, assocGet_singleton_ne v hne]
    rfl
  | (k', v') :: rest => by
    unfold mapPut
    by_cases h1 : lt k k' = true
    · rw [if_pos h1, assocGet_cons_ne (show (k, v).1 ≠ k2 from fun hc => hne hc.symm)]
    · rw [if_neg h1]
      by_cases h2 : k = k'
      · subst h2
        rw [if_pos rfl,
          assocGet_cons_ne (show ((k, v) : α × β).1 ≠ k2 from fun hc => hne hc.symm),
          assocGet_cons_ne (show ((k, v') : α × β).1 ≠ k2 from fun hc => hne hc.symm)]
      · rw [if_neg h2]
        by_cases h3 : k' = k2
        · simp [assocGet, List.find?_cons, h3]
        · rw [assocGet_cons_ne (show (k', v').1 ≠ k2 from h3),
            assocGet_cons_ne (show (k', v').1 ≠ k2 from h3)]
          exact assocGet_mapPut_ne lt k k2 v hne rest

theorem mapPut_sorted_intLt {β : Type} (k : Int) (v : β) :
    ∀ l : List (Int × β), l.Pairwise (fun a b => intLt a.1 b.1 = true) →
      (mapPut intLt k v l).Pairwise (fun a b => intLt a.1 b.1 = true)
  | [], _ => List.Pairwise.cons (fun x hx => absurd hx (List.not_mem_nil x))
      List.Pairwise.nil
  | (k', v') :: rest, hp => by
    have htail := List.Pairwise.of_cons hp
    unfold mapPut
    by_cases h1 : intLt k k' = true
    · rw [if_pos h1]
      refine List.Pairwise.cons ?_ hp
      intro x hx
      rcases List.mem_cons.1 hx with h | h
      · rw [h]; exact h1
      · have h2 := List.rel_of_pairwise_cons hp h
        unfold intLt at h1 h2 ⊢
        simp only [decide_eq_true_eq] at h1 h2 ⊢
        omega
    · rw [if_neg h1]
      by_cases h2 : k = k'
      · rw [if_pos h2]
        subst h2
        exact List.Pairwise.cons (fun x hx => List.rel_of_pairwise_cons hp hx) htail
      · rw [if_neg h2]
        refine List.Pairwise.cons ?_ (mapPut_sorted_intLt k v rest htail)
        intro x hx
        rcases mem_mapPut intLt k v rest x hx with h | h
        · rw [h]
          unfold intLt at h1 ⊢
          simp only [decide_eq_true_eq] at h1 ⊢
          rcases lt_trichotomy k k' with hh | hh | hh
          · exact absurd hh h1
          · exact absurd hh h2
          · exact hh
        · exact List.rel_of_pairwise_cons hp h

theorem keysNodup_of_sorted {β : Type} :
    ∀ l : List (Int × β), l.Pairwise (fun a b => intLt a.1 b.1 = true) →
      (l.map (fun kv => kv.1)).Nodup
  | [], _ => List.Pairwise.nil
  | kv :: rest, hp => by
    rw [List.map_cons, List.nodup_cons]
    constructor
    · intro hmem
      obtain ⟨kv2, hkv2, hfst⟩ := List.mem_map.1 hmem
      have h := List.rel_of_pairwise_cons hp hkv2
      unfold intLt at h
      simp only [decide_eq_true_eq] at h
      omega
    · exact keysNodup_of_sorted rest (List.Pairwise.of_cons hp)

theorem assocGet_none_of_not_mem {α β : Type} [DecidableEq α] {l : List (α × β)}
    {k : α} (h : k ∉ l.map (fun kv => kv.1)) : assocGet l k = none := by
  cases hg : assocGet l k with
  | none => rfl
  | some v => exact absurd (List.mem_map.2 ⟨(k, v), assocGet_mem hg, rfl⟩) h

theorem dataOK_iff {d : List (Int × Value)} :
    dataOK d = true ↔ ∀ kv ∈ d, Int64Range kv.1 ∧ valOK kv.2 = true := by
  unfold dataOK
  rw [List.all_eq_true]
  constructor
  · intro h kv hkv
    have h2 := h kv hkv
    simp only [Bool.and_eq_true, decide_eq_true_eq] at h2
    exact h2
  · intro h kv hkv
    simp only [Bool.and_eq_true, decide_eq_true_eq]
    exact h kv hkv

theorem dataOK_rawMerge : ∀ (new cur : List (Int × Value)), dataOK cur = true →
    dataOK new = true → dataOK (rawMerge cur new) = true
  | [], cur, h1, _ => h1
  | kv :: rest, cur, h1, h2 => by
    have h2' := dataOK_iff.1 h2
    have hkv := h2' kv (List.mem_cons_self kv rest)
    have hrest : dataOK rest = true :=
      dataOK_iff.2 (fun x hx => h2' x (List.mem_cons_of_mem kv hx))
    have hput : dataOK (mapPut intLt kv.1 kv.2 cur) = true := by
      apply dataOK_iff.2
      intro x hx
      rcases mem_mapPut intLt kv.1 kv.2 cur x hx with h | h
      · rw [h]; exact hkv
      · exact dataOK_iff.1 h1 x h
    show dataOK (rawMerge (mapPut intLt kv.1 kv.2 cur) rest) = true
    exact dataOK_rawMerge rest (mapPut intLt kv.1 kv.2 cur) hput hrest

/-- The merge is the right-biased union: the new event wins per key, keys
only present in the current event are retained. -/
theorem assocGet_rawMerge : ∀ (new cur : List (Int × Value)),
    (new.map (fun kv => kv.1)).Nodup → ∀ pid : Int,
    assocGet (rawMerge cur new) pid =
      match assocGet new pid with
      | some v => some v
      | none => assocGet cur pid
  | [], cur, _, pid => rfl
  | kv :: rest, cur, hnd, pid => by
    rw [List.map_cons, List.nodup_cons] at hnd
    have ih := assocGet_rawMerge rest (mapPut intLt kv.1 kv.2 cur) hnd.2 pid
    show assocGet (rawMerge (mapPut intLt kv.1 kv.2 cur) rest) pid = _
    rw [ih]
    by_cases hp : pid = kv.1
    · subst hp
      have hrest_none : assocGet rest kv.1 = none := assocGet_none_of_not_mem hnd.1
      have hcons : assocGet (kv :: rest) kv.1 = some kv.2 := by
        simp [assocGet, List.find?_cons]
      rw [hrest_none, hcons]
      dsimp only
      exact assocGet_mapPut_self intLt kv.1 kv.2 cur
    · have hcons : assocGet (kv :: rest) pid = assocGet rest pid :=
        assocGet_cons_ne (fun hc => hp hc.symm)
      rw [hcons]
      cases hrp : assocGet rest pid with
      | some v => rfl
      | none =>
        dsimp only
        exact assocGet_mapPut_ne intLt kv.1 pid kv.2 hp cur

/-- The raw-event image of `mdb_put` into a sorted duplicate list. -/
def rawsInsert (m : RawEvent) : List RawEvent → List RawEvent
  | [] => [m]
  | r :: rs => if lexLt m.marshal r.marshal = true then m :: r :: rs
      else r :: rawsInsert m rs

theorem dupInsert_map (m : RawEvent) :
    ∀ raws : List RawEvent, dupInsert m.marshal (raws.map RawEvent.marshal) =
      (rawsInsert m raws).map RawEvent.marshal
  | [] => rfl
  | r :: rs => by
    rw [List.map_cons]
    unfold dupInsert rawsInsert
    by_cases h : lexLt m.marshal r.marshal = true
    · rw [if_pos h, if_pos h, List.map_cons, List.map_cons]
    · rw [if_neg h, if_neg h, List.map_cons, dupInsert_map m rs]

theorem mem_rawsInsert (m : RawEvent) :
    ∀ (l : List RawEvent) (x : RawEvent), x ∈ rawsInsert m l → x = m ∨ x ∈ l
  | [], x, hx => by
    rcases List.mem_cons.1 hx with h | h
    · exact Or.inl h
    · cases h
  | r :: rs, x, hx => by
    unfold rawsInsert at hx
    by_cases h : lexLt m.marshal r.marshal = true
    · rw [if_pos h] at hx
      rcases List.mem_cons.1 hx with h1 | h1
      · exact Or.inl h1
      · exact Or.inr h1
    · rw [if_neg h] at hx
      rcases List.mem_cons.1 hx with h1 | h1
      · exact Or.inr (h1 ▸ List.mem_cons_self _ _)
      · rcases mem_rawsInsert m rs x h1 with h2 | h2
        · exact Or.inl h2
        · exact Or.inr (List.mem_cons_of_mem _ h2)

theorem WFraws_rawsInsert (m : RawEvent) (hmok : RawOK m) :
    ∀ l : List RawEvent, WFraws l → (∀ r ∈ l, r.timestamp ≠ m.timestamp) →
      WFraws (rawsInsert m l)
  | [], _, _ => by
    refine ⟨?_, ?_⟩
    · intro r hr
      rcases List.mem_cons.1 hr with h | h
      · rw [h]; exact hmok
      · cases h
    · exact List.Pairwise.cons (fun x hx => absurd hx (List.not_mem_nil x))
        List.Pairwise.nil
  | r :: rs, hwf, hne => by
    obtain ⟨hok, hsort⟩ := hwf
    have hrok := hok r (List.mem_cons_self r rs)
    have hrne := hne r (List.mem_cons_self r rs)
    have hok' : ∀ x ∈ rs, RawOK x := fun x hx => hok x (List.mem_cons_of_mem r hx)
    have hne' : ∀ x ∈ rs, x.timestamp ≠ m.timestamp :=
      fun x hx => hne x (List.mem_cons_of_mem r hx)
    have hsort' := List.Pairwise.of_cons hsort
    have hlex : lexLt m.marshal r.marshal =
        decide (toU64 m.timestamp < toU64 r.timestamp) :=
      lexLt_marshal (fun hc => hrne hc.symm) hmok.1 hrok.1
    unfold rawsInsert
    by_cases h : lexLt m.marshal r.marshal = true
    · rw [if_pos h]
      rw [hlex] at h
      simp only [decide_eq_true_eq] at h
      refine ⟨?_, ?_⟩
      · intro x hx
        rcases List.mem_cons.1 hx with h1 | h1
        · rw [h1]; exact hmok
        · exact hok x h1
      · refine List.Pairwise.cons ?_ hsort
        intro x hx
        rcases List.mem_cons.1 hx with h1 | h1
        · rw [h1]; exact h
        · have h2 := List.rel_of_pairwise_cons hsort h1
          omega
    · rw [if_neg h]
      rw [hlex] at h
      simp only [decide_eq_true_eq] at h
      have hgt : toU64 r.timestamp < toU64 m.timestamp := by
        rcases Nat.lt_trichotomy (toU64 m.timestamp) (toU64 r.timestamp) with
          h1 | h1 | h1
        · exact absurd h1 h
        · exact absurd (toU64_inj hmok.1 hrok.1 h1).symm hrne
        · exact h1
      obtain ⟨hok2, hsort2⟩ := WFraws_rawsInsert m hmok rs ⟨hok', hsort'⟩ hne'
      refine ⟨?_, ?_⟩
      · intro x hx
        rcases List.mem_cons.1 hx with h1 | h1
        · rw [h1]; exact hrok
        · exact hok2 x h1
      · refine List.Pairwise.cons ?_ hsort2
        intro x hx
        rcases mem_rawsInsert m rs x hx with h1 | h1
        · rw [h1]; exact hgt
        · exact List.rel_of_pairwise_cons hsort h1

theorem find?_rawsInsert (m : RawEvent) {T : Int} (hm : m.timestamp = T) :
    ∀ l : List RawEvent, (∀ r ∈ l, r.timestamp ≠ T) →
      (rawsInsert m l).find? (fun r => decide (r.timestamp = T)) = some m
  | [], _ => by
    show List.find? _ [m] = some m
    simp [List.find?_cons, hm]
  | r :: rs, hne => by
    unfold rawsInsert
    by_cases h : lexLt m.marshal r.marshal = true
    · rw [if_pos h]
      simp [List.find?_cons, hm]
    · rw [if_neg h]
      have hr : decide (r.timestamp = T) = false := by
        simp only [decide_eq_false_iff_not]
        exact hne r (List.mem_cons_self r rs)
      have ih := find?_rawsInsert m hm rs (fun x hx => hne x (List.mem_cons_of_mem r hx))
      simp [List.find?_cons, hr, ih]

/-! ### toRawEvent lemmas -/

theorem toRawEvent_ts {t : Table} {e : Event} {rnew : RawEvent} {t1 : Table}
    (h : t.toRawEvent e = (.ok rnew, t1)) :
    rnew.timestamp = shiftTime e.Timestamp := by
  unfold Table.toRawEvent at h
  rcases hl : Table.toRawLoop t e.Data [] with ⟨res, t2⟩
  rw [hl] at h
  cases res with
  | ok d =>
    dsimp only at h
    cases h
    rfl
  | error er =>
    dsimp only at h
    cases h

theorem toRawLoop_shape : ∀ (t : Table) (d : List (Bytes × Value))
    (acc : List (Int × Value)),
    ∃ (c : Int → FactorCache) (f : Int → FactorDB),
      (Table.toRawLoop t d acc).2 = { t with caches := c, factors := f }
  | t, [], acc => ⟨t.caches, t.factors, rfl⟩
  | t, (k, v) :: rest, acc => by
    unfold Table.toRawLoop
    cases hp : assocGet t.properties k with
    | none => exact ⟨t.caches, t.factors, rfl⟩
    | some p =>
      dsimp only
      by_cases hft : p.DataType = DataType.Factor
      · rw [if_pos hft]
        cases hc : p.Cast v with
        | vstr s =>
          dsimp only
          rcases hfz : t.factorize p.ID s true with ⟨fr, t'⟩
          obtain ⟨c0, f0, hsh0⟩ := factorize_shape t p.ID s true
          rw [hfz] at hsh0
          dsimp only at hsh0
          cases fr with
          | ok idx =>
            dsimp only
            obtain ⟨c, f, hcf⟩ :=
              toRawLoop_shape t' rest (mapPut intLt p.ID (.vint idx) acc)
            refine ⟨c, f, ?_⟩
            rw [hcf, hsh0]
          | error er => exact ⟨_, _, hsh0⟩
        | vint i => exact ⟨t.caches, t.factors, rfl⟩
        | vfloat bits => exact ⟨t.caches, t.factors, rfl⟩
        | vbool b => exact ⟨t.caches, t.factors, rfl⟩
      · rw [if_neg hft]
        exact toRawLoop_shape t rest (mapPut intLt p.ID (p.Cast v) acc)

theorem toRawEvent_shape (t : Table) (e : Event) :
    ∃ (c : Int → FactorCache) (f : Int → FactorDB),
      (t.toRawEvent e).2 = { t with caches := c, factors := f } := by
  unfold Table.toRawEvent
  rcases hl : Table.toRawLoop t e.Data [] with ⟨res, t2⟩
  obtain ⟨c, f, hcf⟩ := toRawLoop_shape t e.Data []
  rw [hl] at hcf
  dsimp only at hcf
  cases res with
  | ok d => exact ⟨c, f, hcf⟩
  | error er => exact ⟨c, f, hcf⟩

theorem toRawLoop_sorted : ∀ (t : Table) (d : List (Bytes × Value))
    (acc out : List (Int × Value)),
    acc.Pairwise (fun a b => intLt a.1 b.1 = true) →
    (Table.toRawLoop t d acc).1 = .ok out →
    out.Pairwise (fun a b => intLt a.1 b.1 = true)
  | t, [], acc, out, hs, h => by
    have h' : (Except.ok acc : Except DBError (List (Int × Value))) = .ok out := h
    rw [← Except.ok.inj h']
    exact hs
  | t, (k, v) :: rest, acc, out, hs, h => by
    unfold Table.toRawLoop at h
    cases hp : assocGet t.properties k with
    | none =>
      rw [hp] at h
      dsimp only at h
      cases h
    | some p =>
      rw [hp] at h
      dsimp only at h
      by_cases hft : p.DataType = DataType.Factor
      · rw [if_pos hft] at h
        cases hc : p.Cast v with
        | vstr s =>
          rw [hc] at h
          dsimp only at h
          rcases hfz : t.factorize p.ID s true with ⟨fr, t'⟩
          rw [hfz] at h
          cases fr with
          | ok idx =>
            dsimp only at h
            exact toRawLoop_sorted t' rest _ out
              (mapPut_sorted_intLt p.ID (.vint idx) acc hs) h
          | error er =>
            dsimp only at h
            cases h
        | vint i => rw [hc] at h; dsimp only at h; cases h
        | vfloat bits => rw [hc] at h; dsimp only at h; cases h
        | vbool b => rw [hc] at h; dsimp only at h; cases h
      · rw [if_neg hft] at h
        exact toRawLoop_sorted t rest _ out
          (mapPut_sorted_intLt p.ID (p.Cast v) acc hs) h

theorem toRawEvent_nodup {t : Table} {e : Event} {rnew : RawEvent} {t1 : Table}
    (h : t.toRawEvent e = (.ok rnew, t1)) :
    (rnew.data.map (fun kv => kv.1)).Nodup := by
  unfold Table.toRawEvent at h
  rcases hl : Table.toRawLoop t e.Data [] with ⟨res, t2⟩
  rw [hl] at h
  cases res with
  | error er =>
    dsimp only at h
    cases h
  | ok d =>
    dsimp only at h
    cases h
    have hsort := toRawLoop_sorted t e.Data [] d List.Pairwise.nil (by rw [hl])
    exact keysNodup_of_sorted d hsort

/-! ### GetEvents order lemmas -/

/-- For non-negative wall-clock times the unsigned duplicate order of the
shifted headers agrees with chronological order. -/
theorem shiftTime_toU64_lt {us1 us2 : Int} (h1 : 0 ≤ us1) (h2 : 0 ≤ us2)
    (hr1 : Int64Range (shiftTime us1)) (hr2 : Int64Range (shiftTime us2))
    (hlt : toU64 (shiftTime us1) < toU64 (shiftTime us2)) : us1 < us2 := by
  unfold toU64 at hlt
  unfold Int64Range at hr1 hr2
  unfold shiftTime at hlt hr1 hr2
  rw [Int.tdiv_eq_ediv h1 (by norm_num), Int.tmod_eq_emod h1 (by norm_num)] at hlt hr1
  rw [Int.tdiv_eq_ediv h2 (by norm_num), Int.tmod_eq_emod h2 (by norm_num)] at hlt hr2
  have e1 : (us1 / 1000000 * 2 ^ 20 + us1 % 1000000) % (2 ^ 64 : Int) =
      us1 / 1000000 * 2 ^ 20 + us1 % 1000000 := Int.emod_eq_of_lt (by omega) (by omega)
  have e2 : (us2 / 1000000 * 2 ^ 20 + us2 % 1000000) % (2 ^ 64 : Int) =
      us2 / 1000000 * 2 ^ 20 + us2 % 1000000 := Int.emod_eq_of_lt (by omega) (by omega)
  rw [e1, e2] at hlt
  omega

/-- A successful `toEvent` carries the unshifted stored timestamp. -/
theorem toEvent_ts {t : Table} {r : RawEvent} {ev : Event}
    (h : (t.toEvent r).1 = .ok ev) : ev.Timestamp = unshiftTime r.timestamp := by
  unfold Table.toEvent at h
  rcases hl : Table.toEvLoop t r.data [] with ⟨res, t2⟩
  rw [hl] at h
  cases res with
  | ok d =>
    dsimp only at h
    rw [← Except.ok.inj h]
  | error er =>
    dsimp only at h
    cases h

/-- The `GetEvents` conversion loop preserves the stored order of
timestamps. -/
theorem toEventsLoop_ts :
    ∀ (t : Table) (raws : List RawEvent) (acc : List Event) (evs : List Event)
      (t' : Table), Table.toEventsLoop t raws acc = (.ok evs, t') →
      evs.map Event.Timestamp =
        (acc.reverse.map Event.Timestamp) ++
          raws.map (fun r => unshiftTime r.timestamp)
  | t, [], acc, evs, t', h => by
    unfold Table.toEventsLoop at h
    cases h
    simp
  | t, r :: rest, acc, evs, t', h => by
    unfold Table.toEventsLoop at h
    rcases hte : t.toEvent r with ⟨res, t2⟩
    rw [hte] at h
    cases res with
    | error er =>
      dsimp only at h
      cases h
    | ok ev =>
      dsimp only at h
      have hts : ev.Timestamp = unshiftTime r.timestamp :=
        toEvent_ts (by rw [hte])
      have ih := toEventsLoop_ts t2 rest (ev :: acc) evs t' h
      rw [ih]
      simp [hts]

theorem unmarshalAll_map {raws : List RawEvent} (hok : ∀ r ∈ raws, RawOK r) :
    Table.unmarshalAll (raws.map RawEvent.marshal) = some raws := by
  induction raws with
  | nil => rfl
  | cons r rest ih =>
    have hr := hok r (List.mem_cons_self r rest)
    rw [List.map_cons]
    unfold Table.unmarshalAll
    rw [unmarshal_marshal r hr.1 hr.2]
    dsimp only
    rw [ih (fun x hx => hok x (List.mem_cons_of_mem r hx))]

theorem getRawEvents_wf {t : Table} {id : Bytes} {raws : List RawEvent}
    (hid : id ≠ []) (hok : ∀ r ∈ raws, RawOK r)
    (hdups : t.dups (t.shardIndex id) id = raws.map RawEvent.marshal) :
    t.getRawEvents id = .ok raws := by
  unfold Table.getRawEvents txnGetAll
  rw [if_neg hid, hdups, unmarshalAll_map hok]

/-- `putAt` on a well-formed duplicate list, then `getAt` at the written
timestamp header: the freshly written event is read back. -/
theorem getRawEvent_putAt (t1 : Table) (id : Bytes) (hid : id ≠ [])
    (hsh1 : t1.shardIndex id < t1.shards.length)
    (raws : List RawEvent) (hwf : WFraws raws)
    (hdups1 : t1.dups (t1.shardIndex id) id = raws.map RawEvent.marshal)
    (m : RawEvent) (hmok : RawOK m) (T : Int) (hmts : m.timestamp = T)
    (hT : Int64Range T) :
    (t1.setDups (t1.shardIndex id) id
      (txnPutAt (t1.dups (t1.shardIndex id) id) (tsBytes T)
        m.marshal)).getRawEvent id T = .ok (some m) := by
  have hfilter_ne : ∀ r ∈ raws.filter (fun r => ! decide (r.timestamp = T)),
      r.timestamp ≠ m.timestamp := by
    intro r hr
    have h2 := List.of_mem_filter hr
    rw [hmts]
    simpa using h2
  have hwff := WFraws_filter hwf (fun r => ! decide (r.timestamp = T))
  have hwfi := WFraws_rawsInsert m hmok _ hwff hfilter_ne
  unfold Table.getRawEvent
  rw [if_neg hid]
  have hdd : (t1.setDups (t1.shardIndex id) id
      (txnPutAt (t1.dups (t1.shardIndex id) id) (tsBytes T) m.marshal)).dups
      ((t1.setDups (t1.shardIndex id) id
        (txnPutAt (t1.dups (t1.shardIndex id) id) (tsBytes T) m.marshal)).shardIndex
          id) id =
      txnPutAt (t1.dups (t1.shardIndex id) id) (tsBytes T) m.marshal := by
    show (t1.setDups (t1.shardIndex id) id
      (txnPutAt (t1.dups (t1.shardIndex id) id) (tsBytes T) m.marshal)).dups
      (t1.shardIndex id) id = _
    exact dups_setDups_self t1 _ _ _ hsh1
  rw [hdd]
  unfold txnPutAt
  rw [hdups1, txnDelAt_wf hwf hT, dupInsert_map m, txnGetAt_wf hwfi hT,
    find?_rawsInsert m hmts _ (fun r hr => by
      have h2 := List.of_mem_filter hr
      simpa using h2)]
  dsimp only [Option.map]
  rw [unmarshal_marshal m hmok.1 hmok.2]

/-- `GetEvent` through a known raw read. -/
theorem GetEvent_of_getRawEvent {t2 : Table} {id : Bytes} {us : Int} {m : RawEvent}
    (ho : t2.isOpen = true)
    (hraw : t2.getRawEvent id (shiftTime us) = .ok (some m)) :
    (t2.GetEvent id us).1 = Except.map (fun ev => some ev) (t2.toEvent m).1 := by
  unfold Table.GetEvent
  rw [if_neg (fun hc => hc ho), hraw]
  dsimp only
  rcases hte : t2.toEvent m with ⟨res, t3⟩
  cases res with
  | ok ev => rfl
  | error er => rfl

/-! ## Concrete tables for witnesses and counterexamples -/

/-- A freshly created open table: one shard, no properties, empty factor
dictionaries and caches. -/
def table0 : Table :=
  ⟨true, "t", 1, 0, 0, [], [], fun _ => ⟨[]⟩, fun _ => emptyFactorDB, [[]]⟩

/-- The same table after `close()`: `env = nil`. -/
def tableClosed : Table :=
  ⟨false, "t", 1, 0, 0, [], [], fun _ => ⟨[]⟩, fun _ => emptyFactorDB, [[]]⟩

/-- A permanent integer property named `"o"` with id 1. -/
def propO : Property := ⟨1, [111], DataType.Integer, false⟩

/-- `table0` after `create_property("o", Integer, false)`. -/
def tableP : Table :=
  ⟨true, "t", 1, 1, 0, [([111], propO)], [(1, propO)],
    fun _ => ⟨[]⟩, fun _ => emptyFactorDB, [[]]⟩

end Sky

namespace Sky

/-! # Claims -/

/-- C4, counterexample.  The claim includes pre-epoch times (negative
shifted values) in the round-trip.  At one microsecond before the epoch
(`t = -1 µs`), Go's truncated division gives `sec = 0, usec = -1`, so
`shift(t) = -1`; `unshift` splits `-1` with Euclidean semantics
(`-1 & 0xFFFFF = 0xFFFFF`, `-1 >> 20 = -1`) and returns `48575 µs ≠ -1 µs`. -/
theorem shiftTime_pre_epoch_no_roundtrip :
    shiftTime (-1) = -1 ∧ shiftTime (-1) < 0 ∧
    unshiftTime (shiftTime (-1)) = 48575 ∧ unshiftTime (shiftTime (-1)) ≠ -1 := by
  constructor
  · decide
  constructor
  · decide
  constructor
  · decide
  · decide

/-- C4, amended.  `unshift(shift(t)) = t` holds for every µs-resolution
time at or after the Unix epoch, and for pre-epoch times exactly at whole
seconds; pre-epoch times with a fractional-second part do not round-trip
(see the counterexample). -/
theorem shift_unshift_roundtrip (us : Int) (h : 0 ≤ us ∨ us.tmod 1000000 = 0) :
    unshiftTime (shiftTime us) = us :=
  h.elim unshift_shift_of_nonneg unshift_shift_of_whole_second

/-- C4, witness: a concrete post-epoch microsecond count and a concrete
pre-epoch whole second both round-trip. -/
theorem shift_unshift_roundtrip_witness :
    ((0 : Int) ≤ 1325376000123456 ∨ (1325376000123456 : Int).tmod 1000000 = 0) ∧
    unshiftTime (shiftTime 1325376000123456) = 1325376000123456 ∧
    ((0 : Int) ≤ -5000000 ∨ (-5000000 : Int).tmod 1000000 = 0) ∧
    unshiftTime (shiftTime (-5000000)) = -5000000 :=
  ⟨Or.inl (by decide), shift_unshift_roundtrip 1325376000123456 (Or.inl (by decide)),
   Or.inr (by decide), shift_unshift_roundtrip (-5000000) (Or.inr (by decide))⟩

/-- C6 (code bug).  `factorize` with `createIfNotExists = false` on a full
miss — empty LRU cache and no forward entry in the factor DBI — returns
`(0, nil)`: success with 0, not the `FactorNotFound` failure that the
function's own doc comment (`part_024:738`), the sibling drafts
(`db/table.go:416`, `part_023`) and the spec prescribe.  Evaluated at the
failing input: property 1, value `"A"`, on a fresh open table. -/
theorem factorize_miss_no_error :
    (table0.Factorize 1 [65]).1 = Except.ok 0 ∧
    (table0.Factorize 1 [65]).1 ≠ Except.error DBError.factorNotFound := by
  constructor
  · rfl
  · decide

/-- C9, counterexample.  `Table.Factorize` (`part_024:731`) takes the lock
but never checks that the table is open: on a closed table, factorizing the
empty string succeeds with 0 instead of returning `NotOpen`. -/
theorem closed_factorize_not_notOpen :
    tableClosed.isOpen = false ∧
    (tableClosed.Factorize 1 []).1 = Except.ok 0 ∧
    (tableClosed.Factorize 1 []).1 ≠ Except.error DBError.tableNotOpen := by
  refine ⟨rfl, rfl, ?_⟩
  decide

/-- C9, amended.  On a table that is not open, the event operations, the
schema operations and `keys` all return `NotOpen`; but `Factorize`,
`Defactorize` and `Stat` perform no open check: `Factorize`/`Defactorize`
can succeed (empty string / zero index, or an LRU hit), and `Stat`
dereferences the nil environment (a runtime panic, not `NotOpen`). -/
theorem closed_table_ops (t : Table) (h : t.isOpen = false)
    (id : Bytes) (us : Int) (e : Event) (events : List Event)
    (objects : List (Bytes × List Event)) (dt : String) (nameB newB : Bytes)
    (tr saveOk : Bool) (pid : Int) :
    (t.GetEvent id us).1 = .error .tableNotOpen ∧
    (t.GetEvents id).1 = .error .tableNotOpen ∧
    (t.InsertEvent id e).1 = .error .tableNotOpen ∧
    (t.InsertEvents id events).1 = .error .tableNotOpen ∧
    (t.InsertObjects objects).1 = .error .tableNotOpen ∧
    (t.DeleteEvent id us).1 = .error .tableNotOpen ∧
    (t.DeleteEvents id).1 = .error .tableNotOpen ∧
    t.Properties = .error .tableNotOpen ∧
    t.PropertiesByID = .error .tableNotOpen ∧
    t.Property nameB = .error .tableNotOpen ∧
    t.PropertyByID pid = .error .tableNotOpen ∧
    (t.CreateProperty nameB dt tr saveOk).1 = .error .tableNotOpen ∧
    (t.RenameProperty nameB newB saveOk).1 = .error .tableNotOpen ∧
    (t.DeleteProperty nameB saveOk).1 = .error .tableNotOpen ∧
    t.Keys = .error .tableNotOpen ∧
    t.Stat = .error .nilEnvPanic ∧
    (t.Factorize pid []).1 = .ok 0 ∧
    (t.Defactorize pid 0).1 = .ok [] := by
  refine ⟨?_, ?_, ?_, ?_, ?_, ?_, ?_, ?_, ?_, ?_, ?_, ?_, ?_, ?_, ?_, ?_, ?_, ?_⟩ <;>
    simp [Table.GetEvent, Table.GetEvents, Table.InsertEvent, Table.InsertEvents,
      Table.InsertObjects, Table.DeleteEvent, Table.DeleteEvents, Table.Properties,
      Table.PropertiesByID, Table.Property, Table.PropertyByID, Table.CreateProperty,
      Table.RenameProperty, Table.DeleteProperty, Table.Keys, Table.Stat,
      Table.Factorize, Table.factorize, Table.Defactorize, Table.defactorize, h]

/-- C9, witness: the amended statement applied to the concrete closed
table. -/
theorem closed_table_ops_witness :
    tableClosed.isOpen = false ∧
    (tableClosed.GetEvent [120] 0).1 = .error .tableNotOpen ∧
    tableClosed.Stat = .error .nilEnvPanic :=
  ⟨rfl,
   (closed_table_ops tableClosed rfl [120] 0 ⟨0, []⟩ [] [] "integer" [110] [109]
     false true 1).1,
   (closed_table_ops tableClosed rfl [120] 0 ⟨0, []⟩ [] [] "integer" [110] [109]
     false true 1).2.2.2.2.2.2.2.2.2.2.2.2.2.2.2.1⟩

/-- C8, counterexample.  When persisting meta fails in `create_property`,
the in-memory property maps are restored but `maxPermanentID` keeps its
increment (`part_024:317-347` increments the counter before `save()` and
the failure path restores only the two maps): on a fresh table the failed
call leaves `maxPermanentID = 1`. -/
theorem create_property_save_failure_leaks_counter :
    (table0.CreateProperty [112] DataType.Integer false false).1 =
      .error .storageError ∧
    (table0.CreateProperty [112] DataType.Integer false false).2.properties =
      table0.properties ∧
    (table0.CreateProperty [112] DataType.Integer false false).2.propertiesByID =
      table0.propertiesByID ∧
    (table0.CreateProperty [112] DataType.Integer false false).2.maxPermanentID = 1 ∧
    table0.maxPermanentID = 0 := by
  refine ⟨rfl, rfl, rfl, rfl, rfl⟩

/-- C8, amended.  If persisting meta fails, the operation returns the
error and the property maps are exactly as before; `rename_property` and
`delete_property` leave the whole in-memory state unchanged, but
`create_property` retains the increment of `maxPermanentID` (permanent) or
`maxTransientID` (transient). -/
theorem save_failure_rollback (t : Table) (hopen : t.isOpen = true) :
    (∀ name dt tr, assocGet t.properties name = none →
      Property.Validate ⟨0, name, dt, tr⟩ = none →
      (t.CreateProperty name dt tr false).1 = .error .storageError ∧
      (t.CreateProperty name dt tr false).2.properties = t.properties ∧
      (t.CreateProperty name dt tr false).2.propertiesByID = t.propertiesByID ∧
      (t.CreateProperty name dt tr false).2.caches = t.caches ∧
      (t.CreateProperty name dt tr false).2.factors = t.factors ∧
      (t.CreateProperty name dt tr false).2.shards = t.shards ∧
      (tr = false → (t.CreateProperty name dt tr false).2.maxPermanentID =
          t.maxPermanentID + 1 ∧
        (t.CreateProperty name dt tr false).2.maxTransientID = t.maxTransientID) ∧
      (tr = true → (t.CreateProperty name dt tr false).2.maxTransientID =
          t.maxTransientID - 1 ∧
        (t.CreateProperty name dt tr false).2.maxPermanentID = t.maxPermanentID)) ∧
    (∀ oldN newN p, assocGet t.properties oldN = some p →
      assocGet t.properties newN = none →
      t.RenameProperty oldN newN false = (.error .storageError, t)) ∧
    (∀ name p, assocGet t.properties name = some p →
      t.DeleteProperty name false = (.error .storageError, t)) := by
  refine ⟨?_, ?_, ?_⟩
  · intro name dt tr hfree hval
    have hiss : (assocGet t.properties name).isSome = false := by rw [hfree]; rfl
    cases tr <;>
      simp [Table.CreateProperty, hopen, hiss, hval]
  · intro oldN newN p hold hnew
    have hiss : (assocGet t.properties newN).isSome = false := by rw [hnew]; rfl
    simp [Table.RenameProperty, hopen, hold, hiss]
  · intro name p hsome
    simp [Table.DeleteProperty, hopen, hsome]

/-- C8, witness: the amended statement applied to the fresh table and a
permanent integer property. -/
theorem save_failure_rollback_witness :
    assocGet table0.properties [112] = none ∧
    Property.Validate ⟨0, [112], DataType.Integer, false⟩ = none ∧
    (table0.CreateProperty [112] DataType.Integer false false).1 =
      .error .storageError :=
  ⟨rfl, by decide,
   ((save_failure_rollback table0 rfl).1 [112] DataType.Integer false rfl
     (by decide)).1⟩

/-- C10.  After a successful `rename_property(old, new)`, the by-ID map is
untouched: `property_by_id(p.ID)` still returns the original property
object carrying the old name, and `to_event` keeps keying decoded events
under the old name. -/
theorem rename_keeps_by_id_map (t : Table) (oldName newName : Bytes) (p : Property)
    (hopen : t.isOpen = true)
    (hold : assocGet t.properties oldName = some p)
    (hpname : p.Name = oldName)
    (hnew : assocGet t.properties newName = none)
    (hbyid : assocGet t.propertiesByID p.ID = some p) :
    (t.RenameProperty oldName newName true).1 = .ok { p with Name := newName } ∧
    (t.RenameProperty oldName newName true).2.propertiesByID = t.propertiesByID ∧
    (t.RenameProperty oldName newName true).2.PropertyByID p.ID = .ok (some p) ∧
    (∀ ts v, p.DataType = DataType.Integer →
      ((t.RenameProperty oldName newName true).2.toEvent ⟨ts, [(p.ID, .vint v)]⟩).1 =
        .ok ⟨unshiftTime ts, [(oldName, .vint v)]⟩) := by
  have hiss : (assocGet t.properties newName).isSome = false := by rw [hnew]; rfl
  have hr : t.RenameProperty oldName newName true =
      (.ok { p with Name := newName },
        { t with properties :=
            (assocPut (assocDel t.properties oldName) newName ({ p with Name := newName })) }) := by
    simp [Table.RenameProperty, hopen, hold, hiss]
  refine ⟨by rw [hr], by rw [hr], ?_, ?_⟩
  · rw [hr]
    simp [Table.PropertyByID, hopen, hbyid]
  · intro ts v hint
    rw [hr]
    simp only [Table.toEvent, Table.toEvLoop, hbyid, hint]
    have : DataType.Integer ≠ DataType.Factor := by decide
    simp [this, promote, mapPut, hpname]

/-- C10, witness: renaming `"o"` to `"n"` on the concrete one-property
table; `PropertyByID 1` still returns the property named `"o"`. -/
theorem rename_keeps_by_id_map_witness :
    tableP.isOpen = true ∧
    assocGet tableP.properties [111] = some propO ∧
    (tableP.RenameProperty [111] [110] true).2.PropertyByID 1 = .ok (some propO) ∧
    propO.Name = [111] :=
  ⟨rfl, rfl,
   (rename_keeps_by_id_map tableP [111] [110] propO rfl rfl rfl rfl rfl).2.2.1,
   rfl⟩

set_option maxRecDepth 100000

/-- C7, counterexample.  Let `s1 = "A"*600` and `s2 = "A"*500 ++ "B"*100`.
`factorize(1, s1)` assigns id 1 and `factorize(1, s2)` returns 1 through
the 500-byte key collision — but `defactorize(1, 1)` then hits the LRU
cache, which the `s2` fetch-hit populated with the untruncated `s2`
(`part_024:768` caches the original value), and returns the 600-byte
`s2`, not a 500-byte string. -/
theorem factor_truncation_collision_cache :
    (((table0.factorize 1 (List.replicate 600 65) true).2.factorize 1
        (List.replicate 500 65 ++ List.replicate 100 66) true).2.defactorize 1 1).1 =
      Except.ok (List.replicate 500 65 ++ List.replicate 100 66) ∧
    (List.replicate 500 65 ++ List.replicate 100 66 : Bytes).length = 600 ∧
    (((table0.factorize 1 (List.replicate 600 65) true).2.factorize 1
        (List.replicate 500 65 ++ List.replicate 100 66) true).2.defactorize 1 1).1 ≠
      Except.ok (List.replicate 500 65) := by
  refine ⟨by decide, by decide, by decide⟩

/-- C7, amended.  `factorize(1, s1)` assigns id 1; `factorize(1, s2)` also
returns 1 (the forward keys collide after 500-byte truncation);
`defactorize(1, 1)` returns the string most recently cached for id 1 —
here the 600-byte `s2` — and yields the 500-byte truncated string exactly
when the LRU entry is absent (e.g. through a cold cache after reopen),
from the reverse mapping in the factor DBI. -/
theorem factor_truncation_collision :
    ((table0.factorize 1 (List.replicate 600 65) true).1 = Except.ok 1) ∧
    (((table0.factorize 1 (List.replicate 600 65) true).2.factorize 1
        (List.replicate 500 65 ++ List.replicate 100 66) true).1 = Except.ok 1) ∧
    (((table0.factorize 1 (List.replicate 600 65) true).2.factorize 1
        (List.replicate 500 65 ++ List.replicate 100 66) true).2.defactorize 1 1).1 =
      Except.ok (List.replicate 500 65 ++ List.replicate 100 66) ∧
    (({ ((table0.factorize 1 (List.replicate 600 65) true).2.factorize 1
          (List.replicate 500 65 ++ List.replicate 100 66) true).2 with
        caches := fun _ => ⟨[]⟩ } : Table).defactorize 1 1).1 =
      Except.ok (List.replicate 500 65) ∧
    (List.replicate 500 65 : Bytes).length = 500 := by
  refine ⟨by decide, by decide, by decide, by decide, by decide⟩

/-- C5.  On every reachable factor state of a property (a fresh open table
followed by any interleaving of `factorize`/`defactorize` calls on values
within the 500-byte key limit): the empty string factorizes to 0 and 0
defactorizes to the empty string; every assigned id lies in `[1, seq]`; a
fresh value is assigned the strictly increasing next id `seq + 1`;
`factorize` is injective on distinct values of at most 500 bytes (two
consecutive calls return distinct ids); and `defactorize` inverts
`factorize` for every value of at most 500 bytes. -/
theorem factor_dictionary_props (pid : Int) (t : Table) (hreach : FactReach pid t) :
    (t.factorize pid [] true).1 = .ok 0 ∧
    (t.defactorize pid 0).1 = .ok [] ∧
    (∀ s i, assocGet (t.factors pid).fwd s = some i → 1 ≤ i ∧ i ≤ seqOf t pid) ∧
    (∀ v, v ≠ [] → v.length ≤ 500 → assocGet (t.factors pid).fwd v = none →
      (t.factorize pid v true).1 = .ok (seqOf t pid + 1) ∧
      seqOf (t.factorize pid v true).2 pid = seqOf t pid + 1) ∧
    (∀ v1 v2 i1 i2, v1 ≠ v2 → v1.length ≤ 500 → v2.length ≤ 500 →
      (t.factorize pid v1 true).1 = .ok i1 →
      ((t.factorize pid v1 true).2.factorize pid v2 true).1 = .ok i2 →
      i1 ≠ i2) ∧
    (∀ v i, v.length ≤ 500 → (t.factorize pid v true).1 = .ok i →
      ((t.factorize pid v true).2.defactorize pid i).1 = .ok v) := by
  obtain ⟨hinv, hopen⟩ := factReach_inv hreach
  refine ⟨rfl, rfl, ?_, ?_, ?_, ?_⟩
  · intro s i hs
    have h := hinv.fwd_ok s i (assocGet_mem hs)
    exact ⟨h.1, h.2.1⟩
  · intro v hv hlen hnone
    have h := factorize_fresh hinv hopen hlen hv hnone
    exact ⟨h.1, h.2.1⟩
  · intro v1 v2 i1 i2 hne hl1 hl2 h1 h2
    have hinv2 : FInv pid (t.factorize pid v1 true).2 := factorize_FInv hinv hl1
    have hopen2 : (t.factorize pid v1 true).2.isOpen = true := by
      rw [factorize_isOpen]; exact hopen
    by_cases hv1 : v1 = []
    · subst hv1
      have h1' : (Except.ok (0 : Int) : Except DBError Int) = .ok i1 := h1
      cases h1'
      have h2' : (t.factorize pid v2 true).1 = .ok i2 := h2
      have hv2 : v2 ≠ [] := Ne.symm hne
      cases hf2 : assocGet (t.factors pid).fwd v2 with
      | some j =>
        have hh := @factorize_hit pid t v2 true j hinv hopen hl2 hv2 hf2
        rw [hh.1] at h2'
        have hji : j = i2 := Except.ok.inj h2'
        subst hji
        have hj1 : 1 ≤ j := (hinv.fwd_ok v2 j (assocGet_mem hf2)).1
        omega
      | none =>
        have hh := factorize_fresh hinv hopen hl2 hv2 hf2
        rw [hh.1] at h2'
        cases h2'
        have hs0 : 0 ≤ seqOf t pid := hinv.seq_nonneg
        omega
    · cases hf1 : assocGet (t.factors pid).fwd v1 with
      | some j =>
        have hh1 := @factorize_hit pid t v1 true j hinv hopen hl1 hv1 hf1
        rw [hh1.1] at h1
        have hji : j = i1 := Except.ok.inj h1
        subst hji
        by_cases hv2 : v2 = []
        · subst hv2
          have h2' : (Except.ok (0 : Int) : Except DBError Int) = .ok i2 := h2
          have hzi : (0 : Int) = i2 := Except.ok.inj h2'
          subst hzi
          have hj1 : 1 ≤ j := (hinv.fwd_ok v1 j (assocGet_mem hf1)).1
          omega
        · cases hf2 : assocGet ((t.factorize pid v1 true).2.factors pid).fwd v2 with
          | some j2 =>
            have hh2 := @factorize_hit pid ((t.factorize pid v1 true).2) v2 true j2
              hinv2 hopen2 hl2 hv2 hf2
            rw [hh2.1] at h2
            have hji2 : j2 = i2 := Except.ok.inj h2
            subst hji2
            intro hjj
            apply hne
            refine hinv2.get_inj ?_ hf2
            rw [hh1.2, ← hjj]
            exact hf1
          | none =>
            have hh2 := factorize_fresh hinv2 hopen2 hl2 hv2 hf2
            rw [hh2.1] at h2
            have hji2 : seqOf ((t.factorize pid v1 true).2) pid + 1 = i2 :=
              Except.ok.inj h2
            have hs2 : seqOf ((t.factorize pid v1 true).2) pid = seqOf t pid := by
              unfold seqOf
              rw [hh1.2]
            have hj2 : j ≤ seqOf t pid := (hinv.fwd_ok v1 j (assocGet_mem hf1)).2.1
            omega
      | none =>
        have hh1 := factorize_fresh hinv hopen hl1 hv1 hf1
        rw [hh1.1] at h1
        have hji : seqOf t pid + 1 = i1 := Except.ok.inj h1
        subst hji
        by_cases hv2 : v2 = []
        · subst hv2
          have h2' : (Except.ok (0 : Int) : Except DBError Int) = .ok i2 := h2
          have hzi : (0 : Int) = i2 := Except.ok.inj h2'
          subst hzi
          have hs0 : 0 ≤ seqOf t pid := hinv.seq_nonneg
          omega
        · cases hf2 : assocGet ((t.factorize pid v1 true).2.factors pid).fwd v2 with
          | some j2 =>
            have hh2 := @factorize_hit pid ((t.factorize pid v1 true).2) v2 true j2
              hinv2 hopen2 hl2 hv2 hf2
            rw [hh2.1] at h2
            have hji2 : j2 = i2 := Except.ok.inj h2
            subst hji2
            intro hjj
            apply hne
            refine hinv2.get_inj ?_ hf2
            rw [← hjj]
            exact hh1.2.2.1
          | none =>
            have hh2 := factorize_fresh hinv2 hopen2 hl2 hv2 hf2
            rw [hh2.1] at h2
            have hji2 : seqOf ((t.factorize pid v1 true).2) pid + 1 = i2 :=
              Except.ok.inj h2
            have hs2 : seqOf ((t.factorize pid v1 true).2) pid = seqOf t pid + 1 :=
              hh1.2.1
            omega
  · intro v i hlen hres
    by_cases hv : v = []
    · subst hv
      have hres' : (Except.ok (0 : Int) : Except DBError Int) = .ok i := hres
      have hzi : (0 : Int) = i := Except.ok.inj hres'
      subst hzi
      rfl
    · have hinv2 : FInv pid (t.factorize pid v true).2 := factorize_FInv hinv hlen
      have hopen2 : (t.factorize pid v true).2.isOpen = true := by
        rw [factorize_isOpen]; exact hopen
      cases hf : assocGet (t.factors pid).fwd v with
      | some j =>
        have hh := @factorize_hit pid t v true j hinv hopen hlen hv hf
        rw [hh.1] at hres
        have hji : j = i := Except.ok.inj hres
        subst hji
        apply defactorize_of_fwd hinv2 hopen2
        rw [hh.2]
        exact hf
      | none =>
        have hh := factorize_fresh hinv hopen hlen hv hf
        rw [hh.1] at hres
        have hji : seqOf t pid + 1 = i := Except.ok.inj hres
        subst hji
        exact defactorize_of_fwd hinv2 hopen2 hh.2.2.1

/-- C1.  On an open table whose duplicate list for a non-empty `id` is a
well-formed store: after `insert_event(id, e)` (whose conversion to a raw
event succeeded with storable data), the event stored at the shifted
timestamp is exactly the per-property-ID union of the previously stored
event's data (if any) with the converted `e.data`: per key the new value
wins, and keys present only in the old event are retained; `get_event` at
`e.timestamp` then returns precisely that merged event's decoded form. -/
theorem insert_event_merge (t : Table) (id : Bytes) (e : Event)
    (raws : List RawEvent) (rnew : RawEvent) (t1 : Table)
    (hopen : t.isOpen = true) (hid : id ≠ [])
    (hsh : t.shardIndex id < t.shards.length)
    (hwf : WFraws raws)
    (hdups : t.dups (t.shardIndex id) id = raws.map RawEvent.marshal)
    (hT : Int64Range (shiftTime e.Timestamp))
    (hconv : t.toRawEvent e = (.ok rnew, t1))
    (hdok : dataOK rnew.data = true) :
    (t.InsertEvent id e).1 = .ok () ∧
    ∃ merged : RawEvent,
      (t.InsertEvent id e).2.getRawEvent id (shiftTime e.Timestamp) =
        .ok (some merged) ∧
      merged.timestamp = shiftTime e.Timestamp ∧
      (∀ pid : Int,
        assocGet merged.data pid =
          match assocGet rnew.data pid with
          | some v => some v
          | none =>
            match raws.find? (fun r => decide (r.timestamp = shiftTime e.Timestamp)) with
            | some cur => assocGet cur.data pid
            | none => none) ∧
      ((t.InsertEvent id e).2.GetEvent id e.Timestamp).1 =
        Except.map (fun ev => some ev) ((t.InsertEvent id e).2.toEvent merged).1 := by
  have hts := toRawEvent_ts hconv
  obtain ⟨c1, f1, hshape⟩ := toRawEvent_shape t e
  rw [hconv] at hshape
  dsimp only at hshape
  have ht1d : t1.dups (t1.shardIndex id) id = t.dups (t.shardIndex id) id := by
    rw [hshape]
    rfl
  have ht1sh : t1.shardIndex id < t1.shards.length := by rw [hshape]; exact hsh
  have ht1o : t1.isOpen = true := by rw [hshape]; exact hopen
  have hdups1 : t1.dups (t1.shardIndex id) id = raws.map RawEvent.marshal :=
    ht1d.trans hdups
  have hnod := toRawEvent_nodup hconv
  have hrok : Int64Range rnew.timestamp := by rw [hts]; exact hT
  have hread : t1.getRawEvent id rnew.timestamp =
      .ok (raws.find? (fun r => decide (r.timestamp = shiftTime e.Timestamp))) := by
    rw [hts]
    unfold Table.getRawEvent
    rw [if_neg hid, hdups1, txnGetAt_wf hwf hT]
    cases hfind : raws.find? (fun r => decide (r.timestamp = shiftTime e.Timestamp)) with
    | none => rfl
    | some cur =>
      have hcur := hwf.1 cur (List.mem_of_find?_eq_some hfind)
      dsimp only [Option.map]
      rw [unmarshal_marshal cur hcur.1 hcur.2]
  unfold Table.InsertEvent
  rw [if_neg (fun hc => hc hopen)]
  unfold Table.insertEvent
  rw [if_neg hid, hconv]
  dsimp only
  rw [hread]
  cases hfind : raws.find? (fun r => decide (r.timestamp = shiftTime e.Timestamp)) with
  | none =>
    dsimp only
    rw [hts]
    have hput := getRawEvent_putAt t1 id hid ht1sh raws hwf hdups1 rnew
      ⟨hrok, hdok⟩ (shiftTime e.Timestamp) hts hT
    refine ⟨rfl, rnew, hput, hts, ?_, GetEvent_of_getRawEvent ht1o hput⟩
    intro pid
    cases assocGet rnew.data pid with
    | some v => rfl
    | none => rfl
  | some cur =>
    dsimp only
    rw [hts]
    have hcur := hwf.1 cur (List.mem_of_find?_eq_some hfind)
    have hmok : RawOK (⟨shiftTime e.Timestamp,
        rawMerge cur.data rnew.data⟩ : RawEvent) :=
      ⟨hT, dataOK_rawMerge rnew.data cur.data hcur.2 hdok⟩
    have hput := getRawEvent_putAt t1 id hid ht1sh raws hwf hdups1
      ⟨shiftTime e.Timestamp, rawMerge cur.data rnew.data⟩ hmok
      (shiftTime e.Timestamp) rfl hT
    refine ⟨rfl, ⟨shiftTime e.Timestamp, rawMerge cur.data rnew.data⟩, hput, rfl,
      ?_, GetEvent_of_getRawEvent ht1o hput⟩
    intro pid
    have hu := assocGet_rawMerge rnew.data cur.data hnod pid
    rw [show (⟨shiftTime e.Timestamp,
      rawMerge cur.data rnew.data⟩ : RawEvent).data =
        rawMerge cur.data rnew.data from rfl, hu]

/-- C1, witness: inserting an event with empty data into a fresh table
stores it at its shifted timestamp and reads back under `get_event`. -/
theorem insert_event_merge_witness :
    (table0.InsertEvent [1] ⟨1000000, []⟩).1 = .ok () ∧
    ∃ merged : RawEvent,
      (table0.InsertEvent [1] ⟨1000000, []⟩).2.getRawEvent [1]
          (shiftTime 1000000) = .ok (some merged) ∧
      merged.timestamp = shiftTime 1000000 :=
  have h := insert_event_merge table0 [1] ⟨1000000, []⟩ [] ⟨1048576, []⟩ table0
    rfl (by decide) (by decide)
    ⟨fun r hr => absurd hr (List.not_mem_nil r), List.Pairwise.nil⟩
    rfl (by decide) rfl rfl
  ⟨h.1, h.2.elim (fun m hm => ⟨m, hm.1, hm.2.1⟩)⟩

/-- C2, counterexample.  The duplicate order is the unsigned byte order of
the shifted-timestamp headers, so a pre-epoch event (negative shifted
value, top bit set) sorts after every post-epoch event: storing events at
−1 s and +1 s and reading them back returns timestamps `[1000000 µs,
-1000000 µs]` — strictly descending, not ascending. -/
theorem get_events_not_ascending :
    ((((table0.InsertEvent [1] ⟨-1000000, []⟩).2.InsertEvent
        [1] ⟨1000000, []⟩).2.GetEvents [1]).1 =
      Except.ok [⟨1000000, []⟩, ⟨-1000000, []⟩]) ∧
    ¬ List.Pairwise (fun a b : Int => a < b)
      (([⟨1000000, []⟩, ⟨-1000000, []⟩] : List Event).map Event.Timestamp) := by
  constructor
  · decide
  · decide

/-- C2, amended.  On an open table whose duplicate list for a non-empty
`id` is a well-formed store, a successful `get_events(id)` returns one
event per stored raw event, in store order, whose timestamps are the
unshifted stored headers; the stored shifted timestamps are strictly
ascending in unsigned order and pairwise distinct; and the returned
wall-clock timestamps are strictly ascending whenever every stored header
was shifted from a time at or after the epoch — pre-epoch events break
chronological order (see the counterexample). -/
theorem get_events_order (t : Table) (id : Bytes) (raws : List RawEvent)
    (evs : List Event)
    (hopen : t.isOpen = true) (hid : id ≠ [])
    (hwf : WFraws raws)
    (hdups : t.dups (t.shardIndex id) id = raws.map RawEvent.marshal)
    (hres : (t.GetEvents id).1 = .ok evs) :
    evs.map Event.Timestamp = raws.map (fun r => unshiftTime r.timestamp) ∧
    List.Pairwise (fun r s : RawEvent => toU64 r.timestamp < toU64 s.timestamp) raws ∧
    List.Pairwise (fun a b : Int => a ≠ b) (raws.map (fun r => r.timestamp)) ∧
    ((∀ r ∈ raws, ∃ us : Int, 0 ≤ us ∧ r.timestamp = shiftTime us) →
      List.Pairwise (fun a b : Int => a < b) (evs.map Event.Timestamp)) := by
  obtain ⟨hok, hsort⟩ := hwf
  unfold Table.GetEvents at hres
  rw [if_neg (fun hc => hc hopen), getRawEvents_wf hid hok hdups] at hres
  dsimp only at hres
  rcases hloop : Table.toEventsLoop t raws [] with ⟨res, t'⟩
  rw [hloop] at hres
  dsimp only at hres
  subst hres
  have hmap := toEventsLoop_ts t raws [] evs t' hloop
  simp only [List.reverse_nil, List.map_nil, List.nil_append] at hmap
  refine ⟨hmap, hsort, ?_, ?_⟩
  · rw [List.pairwise_map]
    exact hsort.imp (fun h heq => by rw [heq] at h; exact lt_irrefl _ h)
  · intro hcanon
    rw [hmap, List.pairwise_map]
    refine List.Pairwise.imp_of_mem ?_ hsort
    intro a b ha hb hab
    obtain ⟨us1, hus1, hts1⟩ := hcanon a ha
    obtain ⟨us2, hus2, hts2⟩ := hcanon b hb
    have hra := (hok a ha).1
    have hrb := (hok b hb).1
    rw [hts1] at hab hra ⊢
    rw [hts2] at hab hrb ⊢
    rw [unshift_shift_of_nonneg hus1, unshift_shift_of_nonneg hus2]
    exact shiftTime_toU64_lt hus1 hus2 hra hrb hab

/-- C2, witness: two post-epoch events come back in strictly ascending
timestamp order. -/
theorem get_events_order_witness :
    ((((table0.InsertEvent [1] ⟨1000000, []⟩).2.InsertEvent
        [1] ⟨3000000, []⟩).2.GetEvents [1]).1 =
      Except.ok [⟨1000000, []⟩, ⟨3000000, []⟩]) ∧
    List.Pairwise (fun a b : Int => a < b)
      (([⟨1000000, []⟩, ⟨3000000, []⟩] : List Event).map Event.Timestamp) := by
  refine ⟨by decide, ?_⟩
  refine (get_events_order
    ((table0.InsertEvent [1] ⟨1000000, []⟩).2.InsertEvent [1] ⟨3000000, []⟩).2
    [1] [⟨1048576, []⟩, ⟨3145728, []⟩] [⟨1000000, []⟩, ⟨3000000, []⟩]
    rfl (by decide) ⟨by decide, by decide⟩ (by decide) (by decide)).2.2.2 ?_
  intro r hr
  rcases List.mem_cons.1 hr with h | h
  · exact ⟨1000000, by decide, by rw [h]; decide⟩
  · rcases List.mem_cons.1 h with h2 | h2
    · exact ⟨3000000, by decide, by rw [h2]; decide⟩
    · exact absurd h2 (List.not_mem_nil r)

/-- C3.  On an open table whose duplicate list for `id` is a well-formed
store (marshalled raw events, strictly ascending timestamp headers):
`delete_event(id, us)` succeeds — also when no event is stored at `us` —
after it `get_event(id, us)` returns `None`, `get_event(id, us2)` at any
other shifted timestamp returns exactly what it returned before, and the
duplicate list of every other object id is untouched. -/
theorem delete_event_frame (t : Table) (id : Bytes) (us : Int)
    (raws : List RawEvent)
    (hopen : t.isOpen = true) (hid : id ≠ [])
    (hsh : t.shardIndex id < t.shards.length)
    (hwf : WFraws raws)
    (hdups : t.dups (t.shardIndex id) id = raws.map RawEvent.marshal)
    (hT : Int64Range (shiftTime us)) :
    (t.DeleteEvent id us).1 = .ok () ∧
    ((t.DeleteEvent id us).2.GetEvent id us).1 = .ok none ∧
    (∀ us2, Int64Range (shiftTime us2) → shiftTime us2 ≠ shiftTime us →
      ((t.DeleteEvent id us).2.GetEvent id us2).1 = (t.GetEvent id us2).1) ∧
    (∀ id2, id2 ≠ id →
      (t.DeleteEvent id us).2.dups ((t.DeleteEvent id us).2.shardIndex id2) id2 =
        t.dups (t.shardIndex id2) id2) := by
  have hdel := DeleteEvent_open t hopen hid us
  refine ⟨by rw [hdel], ?_, ?_, ?_⟩
  · -- the deleted slot reads back empty
    rw [hdel]
    have hge : (t.setDups (t.shardIndex id) id
        (txnDelAt (t.dups (t.shardIndex id) id)
          (tsBytes (shiftTime us)))).getRawEvent id (shiftTime us) = .ok none := by
      unfold Table.getRawEvent
      rw [if_neg hid]
      have hdd : (t.setDups (t.shardIndex id) id
          (txnDelAt (t.dups (t.shardIndex id) id) (tsBytes (shiftTime us)))).dups
            ((t.setDups (t.shardIndex id) id
              (txnDelAt (t.dups (t.shardIndex id) id)
                (tsBytes (shiftTime us)))).shardIndex id) id =
          (raws.filter (fun r => ! decide (r.timestamp = shiftTime us))).map
            RawEvent.marshal := by
        show (t.setDups (t.shardIndex id) id
          (txnDelAt (t.dups (t.shardIndex id) id) (tsBytes (shiftTime us)))).dups
            (t.shardIndex id) id = _
        rw [dups_setDups_self t _ _ _ hsh, hdups, txnDelAt_wf hwf hT]
      rw [hdd, txnGetAt_wf (WFraws_filter hwf _) hT,
        find?_filter_self (fun r => decide (r.timestamp = shiftTime us)) raws]
      rfl
    unfold Table.GetEvent
    rw [if_neg (fun hc => hc hopen), hge]
  · -- frame: other timestamps of the same object
    intro us2 hT2 hne
    rw [hdel]
    have himp : ∀ a : RawEvent,
        (fun r => ! decide (r.timestamp = shiftTime us)) a = false →
        (fun r => decide (r.timestamp = shiftTime us2)) a = false := by
      intro a hp
      simp only [Bool.not_eq_false', decide_eq_true_eq] at hp
      simp only [decide_eq_false_iff_not]
      rw [hp]
      exact fun hc => hne hc.symm
    have hraw : (t.setDups (t.shardIndex id) id
        (txnDelAt (t.dups (t.shardIndex id) id)
          (tsBytes (shiftTime us)))).getRawEvent id (shiftTime us2) =
        t.getRawEvent id (shiftTime us2) := by
      unfold Table.getRawEvent
      rw [if_neg hid, if_neg hid]
      have hscrut : txnGetAt ((t.setDups (t.shardIndex id) id
          (txnDelAt (t.dups (t.shardIndex id) id) (tsBytes (shiftTime us)))).dups
            ((t.setDups (t.shardIndex id) id
              (txnDelAt (t.dups (t.shardIndex id) id)
                (tsBytes (shiftTime us)))).shardIndex id) id)
            (tsBytes (shiftTime us2)) =
          txnGetAt (t.dups (t.shardIndex id) id) (tsBytes (shiftTime us2)) := by
        show txnGetAt ((t.setDups (t.shardIndex id) id
          (txnDelAt (t.dups (t.shardIndex id) id) (tsBytes (shiftTime us)))).dups
            (t.shardIndex id) id) (tsBytes (shiftTime us2)) = _
        rw [dups_setDups_self t _ _ _ hsh, hdups, txnDelAt_wf hwf hT,
          txnGetAt_wf (WFraws_filter hwf _) hT2,
          find?_filter_of_none _ _ himp raws, ← txnGetAt_wf hwf hT2, ← hdups]
      rw [hscrut]
    exact GetEvent_shards t _ id us2 hraw
  · -- frame: other objects' duplicate lists
    intro id2 hne2
    rw [hdel]
    show (t.setDups (t.shardIndex id) id
      (txnDelAt (t.dups (t.shardIndex id) id) (tsBytes (shiftTime us)))).dups
        (t.shardIndex id2) id2 = t.dups (t.shardIndex id2) id2
    exact dups_setDups_ne t _ id _ _ id2 hne2 hsh

/-- C3, witness: deleting a (missing) event for object id `[1]` at time 0
on a fresh table succeeds and the slot reads back empty. -/
theorem delete_event_frame_witness :
    (table0.DeleteEvent [1] 0).1 = .ok () ∧
    ((table0.DeleteEvent [1] 0).2.GetEvent [1] 0).1 = .ok none :=
  ⟨(delete_event_frame table0 [1] 0 [] rfl (by decide) (by decide)
      ⟨fun r hr => absurd hr (List.not_mem_nil r), List.Pairwise.nil⟩ rfl
      (by decide)).1,
   (delete_event_frame table0 [1] 0 [] rfl (by decide) (by decide)
      ⟨fun r hr => absurd hr (List.not_mem_nil r), List.Pairwise.nil⟩ rfl
      (by decide)).2.1⟩

/-- C5, witness: the reachability hypothesis holds for a freshly created
open table, where the theorem gives the two boundary identities for
property 1. -/
theorem factor_dictionary_props_witness :
    (table0.factorize 1 [] true).1 = .ok 0 ∧
    (table0.defactorize 1 0).1 = .ok [] :=
  ⟨(factor_dictionary_props 1 table0 (FactReach.init table0 rfl rfl rfl)).1,
   (factor_dictionary_props 1 table0 (FactReach.init table0 rfl rfl rfl)).2.1⟩

end Sky
